import Mathlib

/-!
Verification development for `card_maker.py`, a script that lays out a deck
of double-sided cards onto printable pages.

The script has two non-trivial pieces, both embedded here:

* `multi_line_text` (word wrapping): modelled as a pure function of an
  externally supplied width-measurement function `extW` (the script's
  `ctx.text_extents(...).width`).  The Python outer `while` loop does not
  always make progress (its inner loop "is assumed to execute at least
  once", per the script's own comment), so the outer loop is modelled with
  fuel: result `none` means the Python loop never terminates, and
  `some .unboundLocal` means Python raises `UnboundLocalError` because
  `last_part` is read before any assignment.  Line heights and the final
  `centered_text` y-offsets affect only where lines are painted, never the
  committed line strings, and are not modelled.

* `draw_cards` (page layout): modelled as a state machine emitting a trace
  of renderer events (`Ev`).  Card contents flow unchanged into the
  painting helpers (`make_front`/`make_back`), so the deck is represented
  by its length `n` and every event carries the 0-based card index.  The
  geometry constants are gathered into a `Config`; the shipped constants
  form `repoCfg` below, derived exactly as in the script.  Python floats
  are modelled as exact rationals (every derived integer agrees with the
  float computation: the values involved are far from rounding ties), and
  Python's `round` (banker's rounding, half to even) is `pyround`.
-/

-- Batteries seals the rational operations; reopening them lets `decide`
-- evaluate concrete traces in witnesses and counterexamples.
unseal Rat.add Rat.sub Rat.mul Rat.inv Rat.ofScientific

namespace CardMaker

/-- Python's `round`: nearest integer, ties going to the even integer. -/
def pyround (q : ℚ) : ℤ :=
  if q - ⌊q⌋ < 1/2 then ⌊q⌋
  else if 1/2 < q - ⌊q⌋ then ⌊q⌋ + 1
  else if ⌊q⌋ % 2 = 0 then ⌊q⌋ else ⌊q⌋ + 1

/-! ## Text fitter: `multi_line_text`

Python source (`card_maker.py`, lines 46-64):
```
split = text.split(' ')
index = 0
parts = []
while index < len(split):
    part = split[index]             # first word of next part
    ext = ctx.text_extents(part)    # check size
    while ext.width <= max_width:   # assumed to execute at least once
        last_part = part
        index += 1
        if index == len(split):     # end of text reached?
            break
        part += ' ' + split[index]  # try adding next word
        ext = ctx.text_extents(part)
    parts.append(last_part)         # collect part without the last word
```
-/

/-- Splitting a character list at every space, keeping empty pieces:
`text.split(' ')` in Python (with an explicit separator) keeps empty
strings between adjacent spaces and returns `['']` on the empty string. -/
def splitSpaceChars : List Char → List (List Char)
  | [] => [[]]
  | c :: cs =>
    match splitSpaceChars cs with
    | [] => [[]]
    | g :: gs => if c = ' ' then [] :: g :: gs else (c :: g) :: gs

/-- Python's `text.split(' ')`. -/
def pySplit (text : String) : List String :=
  (splitSpaceChars text.toList).map (fun g => String.mk g)

/-- The inner `while` loop of `multi_line_text`, starting from the
accumulated string `part` with the words `rest` still unconsumed.
Returns `some (line, rest')` when the loop runs at least once and leaves
`last_part = line` with the words `rest'` still to process; returns `none`
when the loop guard fails immediately (`part` alone is wider than
`maxW`), in which case Python leaves `last_part` and `index` untouched. -/
def grow (extW : String → ℚ) (maxW : ℚ) (part : String) :
    List String → Option (String × List String)
  | [] => if extW part ≤ maxW then some (part, []) else none
  | w :: rest =>
    if extW part ≤ maxW then
      match grow extW maxW (part ++ " " ++ w) rest with
      | some r => some r
      | none => some (part, w :: rest)
    else none

/-- Outcome of running `multi_line_text`'s outer loop to completion. -/
inductive MltResult where
  /-- The loop finished; `parts` is the committed line list. -/
  | ok (parts : List String)
  /-- Python raised `UnboundLocalError`: `parts.append(last_part)` ran
  before `last_part` was ever assigned. -/
  | unboundLocal
deriving DecidableEq

/-- The outer `while` loop of `multi_line_text`.  `words` is the suffix of
`split` from `index` on, `last` the current value of `last_part`
(`none` = not yet assigned), `acc` the committed `parts`.  Fuel result
`none` means the loop makes no progress (it diverges in Python): when
`grow` fails, `index` is not advanced, so the same state repeats. -/
def mltRun (extW : String → ℚ) (maxW : ℚ) :
    Nat → List String → Option String → List String → Option MltResult
  | 0, words, _, acc => if words.isEmpty then some (.ok acc) else none
  | _ + 1, [], _, acc => some (.ok acc)
  | fuel + 1, w :: rest, last, acc =>
    match grow extW maxW w rest with
    | some (line, rest') => mltRun extW maxW fuel rest' (some line) (acc ++ [line])
    | none =>
      match last with
      | none => some .unboundLocal
      | some l => mltRun extW maxW fuel (w :: rest) (some l) (acc ++ [l])

/-- `multi_line_text` (content part): splits `text` on single spaces and
runs the wrapping loop.  A successful outer iteration always consumes at
least one word, so `split.length + 1` fuel is exact: `none` is returned
precisely when the Python loop diverges. -/
def multi_line_text (extW : String → ℚ) (maxW : ℚ) (text : String) :
    Option MltResult :=
  mltRun extW maxW ((pySplit text).length + 1) (pySplit text) none []

/-- Joining a word list with single spaces, exactly as the accumulation
`part += ' ' + split[index]` builds lines. -/
def joinWords : List String → String
  | [] => ""
  | w :: ws => ws.foldl (fun a b => a ++ " " ++ b) w

/-! ## Deck layout engine: `draw_cards`

Python source (`card_maker.py`, lines 127-181).  `cutting_lines` is one of
`NO = 0`, `YES = 1`, `ONLY = 2` and is used both as a boolean
(`if cutting_lines:` means `≠ 0`) and compared against `ONLY`.
-/

def NO : Nat := 0
def YES : Nat := 1
def ONLY : Nat := 2

/-- The geometry constants consumed by `draw_cards`.  `MARGIN`, `WIDTH`,
`HEIGHT` and `DOT_RADIUS` are integer-valued in the script but enter
rational arithmetic, so they are carried as rationals; `CARDS_HORI` and
`CARDS_VERTI` are the integer card counts per row/column. -/
structure Config where
  CARDS_HORI : Nat
  CARDS_VERTI : Nat
  MARGIN : ℚ
  WIDTH : ℚ
  HEIGHT : ℚ
  DOT_RADIUS : ℚ
  DOTS : Bool
  PAGE_WIDTH : ℚ

/-- `CARDS_PER_PAGE = CARDS_HORI * CARDS_VERTI`. -/
def Config.CARDS_PER_PAGE (cfg : Config) : Nat := cfg.CARDS_HORI * cfg.CARDS_VERTI

/-- One renderer event emitted by `draw_cards`.  `frontFace i r c x y`
bundles the `make_front(cards[i])` and `number(i + 1)` calls painted into
the sub-surface with origin `(x, y)`; `r` and `c` record the row and
`card_in_row` values the loop computed for this placement.  `backFace`
does the same for `make_back`; `cut` is a `cutting_line` call, `dot` a
`black_dot` call on the page surface, `page` a `show_page` call. -/
inductive Ev where
  | cut (x y : ℚ)
  | frontFace (i r c : Nat) (x y : ℚ)
  | backFace (i r c : Nat) (x y : ℚ)
  | dot (x y : ℚ)
  | page
deriving DecidableEq

def isPageEv : Ev → Bool
  | .page => true
  | _ => false

def isDotEv : Ev → Bool
  | .dot _ _ => true
  | _ => false

def isCutEv : Ev → Bool
  | .cut _ _ => true
  | _ => false

def isFrontFace : Ev → Bool
  | .frontFace _ _ _ _ _ => true
  | _ => false

def isBackFace : Ev → Bool
  | .backFace _ _ _ _ _ => true
  | _ => false

/-- A card face painted on either side (one `make_front`/`make_back`). -/
def isPlacement : Ev → Bool
  | .frontFace _ _ _ _ _ => true
  | .backFace _ _ _ _ _ => true
  | _ => false

/-- The card indices painted as fronts, in emission order. -/
def frontsOf (l : List Ev) : List Nat :=
  l.filterMap fun e =>
    match e with
    | .frontFace i _ _ _ _ => some i
    | _ => none

/-- The card indices painted as backs, in emission order. -/
def backsOf (l : List Ev) : List Nat :=
  l.filterMap fun e =>
    match e with
    | .backFace i _ _ _ _ => some i
    | _ => none

/-- `card_in_row = i % CARDS_HORI` (computed identically in both the front
and the back branch of the loop). -/
def colOf (cfg : Config) (i : Nat) : Nat := i % cfg.CARDS_HORI

/-- The row `(i // CARDS_HORI) % CARDS_VERTI` used in both `y` formulas. -/
def rowOf (cfg : Config) (i : Nat) : Nat := (i / cfg.CARDS_HORI) % cfg.CARDS_VERTI

/-- The horizontal gap reserved for alignment dots: `+ 2*DOT_RADIUS` for
column 1, `+ 4*DOT_RADIUS` for later columns (lines 137-140, 167-170). -/
def dotOffset (cfg : Config) (c : Nat) : ℚ :=
  if c = 1 then 2 * cfg.DOT_RADIUS
  else if 1 < c then 4 * cfg.DOT_RADIUS
  else 0

/-- Front-pass x: `MARGIN + card_in_row * WIDTH` plus the dot gap. -/
def frontX (cfg : Config) (i : Nat) : ℚ :=
  cfg.MARGIN + (colOf cfg i : ℚ) * cfg.WIDTH + dotOffset cfg (colOf cfg i)

/-- Both passes' y: `MARGIN + ((i // CARDS_HORI) % CARDS_VERTI) * HEIGHT`. -/
def rowY (cfg : Config) (i : Nat) : ℚ :=
  cfg.MARGIN + (rowOf cfg i : ℚ) * cfg.HEIGHT

/-- Back-pass x: `round(PAGE_WIDTH - MARGIN - (card_in_row + 1) * WIDTH)`
minus the dot gap (lines 166-170). -/
def backX (cfg : Config) (i : Nat) : ℚ :=
  (pyround (cfg.PAGE_WIDTH - cfg.MARGIN - ((colOf cfg i : ℚ) + 1) * cfg.WIDTH) : ℚ)
    - dotOffset cfg (colOf cfg i)

/-- The three `black_dot` calls before a front-page `show_page`
(lines 150-154), present exactly when `DOTS` is set. -/
def pageDots (cfg : Config) : List Ev :=
  if cfg.DOTS then
    [Ev.dot (cfg.MARGIN + cfg.WIDTH + cfg.DOT_RADIUS) (cfg.MARGIN + cfg.HEIGHT),
     Ev.dot (cfg.MARGIN + 2 * cfg.WIDTH + 3 * cfg.DOT_RADIUS) (cfg.MARGIN + 2 * cfg.HEIGHT),
     Ev.dot (cfg.MARGIN + cfg.WIDTH + cfg.DOT_RADIUS) (cfg.MARGIN + 3 * cfg.HEIGHT)]
  else []

/-- Events of one front placement of card `i` (lines 135-148): a cutting
line if `cutting_lines` is truthy, then the face unless mode is `ONLY`. -/
def frontEv (cfg : Config) (m i : Nat) : List Ev :=
  (if m ≠ 0 then [Ev.cut (frontX cfg i) (rowY cfg i)] else [])
    ++ (if m ≠ 2 then [Ev.frontFace i (rowOf cfg i) (colOf cfg i) (frontX cfg i) (rowY cfg i)] else [])

/-- Events of one back placement of card `i` (lines 165-177): a cutting
line if `cutting_lines` is truthy, then the back face (unconditionally:
line 176 is not guarded, but this branch is unreachable in `ONLY` mode). -/
def backEv (cfg : Config) (m i : Nat) : List Ev :=
  (if m ≠ 0 then [Ev.cut (backX cfg i) (rowY cfg i)] else [])
    ++ [Ev.backFace i (rowOf cfg i) (colOf cfg i) (backX cfg i) (rowY cfg i)]

/-- Loop state: the `front` flag and the card counter `i`. -/
structure St where
  front : Bool
  i : Nat

/-- The `if not front:` half of the loop body (lines 163-180) run at card
index `i`, followed by the final `i += 1`: emits the back placement, and a
`show_page` with a flip back to fronts when the page is full. -/
def backHalf (cfg : Config) (m : Nat) (evs1 : List Ev) (i : Nat) : List Ev × St :=
  let evs := evs1 ++ backEv cfg m i
  if (i + 1) % cfg.CARDS_PER_PAGE = 0 then (evs ++ [Ev.page], ⟨true, i + 1⟩)
  else (evs, ⟨false, i + 1⟩)

/-- One full iteration of the `while i < len(cards)` body (lines 132-181),
for a deck of `n` cards in mode `m`.  Only called on states with
`s.i < n`.  When a front page closes, the same iteration continues into
the back half at the rewound index. -/
def stepFn (cfg : Config) (n m : Nat) (s : St) : List Ev × St :=
  if s.front then
    let evs1 := frontEv cfg m s.i
      ++ (if (s.i + 1) % cfg.CARDS_PER_PAGE = 0 ∨ s.i = n - 1
          then pageDots cfg ++ [Ev.page] else [])
    if m ≠ 2 ∧ (s.i + 1) % cfg.CARDS_PER_PAGE = 0 then
      backHalf cfg m evs1 (s.i - (cfg.CARDS_PER_PAGE - 1))
    else if m ≠ 2 ∧ s.i = n - 1 then
      backHalf cfg m evs1 (s.i - s.i % cfg.CARDS_PER_PAGE)
    else (evs1, ⟨true, s.i + 1⟩)
  else backHalf cfg m [] s.i

/-- The `while` loop of `draw_cards`, with fuel: `none` means the fuel ran
out before the loop exited. -/
def loopRun (cfg : Config) (n m : Nat) : Nat → St → Option (List Ev)
  | 0, s => if s.i < n then none else some []
  | fuel + 1, s =>
    if s.i < n then
      (loopRun cfg n m fuel (stepFn cfg n m s).2).map ((stepFn cfg n m s).1 ++ ·)
    else some []

/-- `draw_cards(cards, surface, cutting_lines)` for a deck of `n` cards:
the full event trace.  Every iteration paints at least one placement (or
one card outline in `ONLY` mode) and each of the `n` cards is painted at
most twice, so `2 * n + 1` fuel always suffices (proved below). -/
def draw_cards (cfg : Config) (n m : Nat) : Option (List Ev) :=
  loopRun cfg n m (2 * n + 1) ⟨true, 0⟩

/-- The emitted trace (`[]` in the never-occurring out-of-fuel case). -/
def drawTrace (cfg : Config) (n m : Nat) : List Ev :=
  (draw_cards cfg n m).getD []

/-- Reference trace of the page-block starting at card `lo` (a multiple of
`CARDS_PER_PAGE`) in a card-drawing mode: all fronts of the block, the
alignment dots and the front page break, then all backs, then a second
page break exactly when the block filled the page. -/
def blockEvs (cfg : Config) (n m lo : Nat) : List Ev :=
  let hi := min (lo + cfg.CARDS_PER_PAGE) n
  ((List.range' lo (hi - lo)).flatMap (frontEv cfg m)) ++ pageDots cfg ++ [Ev.page]
    ++ ((List.range' lo (hi - lo)).flatMap (backEv cfg m))
    ++ (if hi % cfg.CARDS_PER_PAGE = 0 then [Ev.page] else [])

/-- `⌈n / CARDS_PER_PAGE⌉`, the number of page-blocks. -/
def nBlocks (cfg : Config) (n : Nat) : Nat :=
  (n + cfg.CARDS_PER_PAGE - 1) / cfg.CARDS_PER_PAGE

/-- Reference trace of a whole run in a card-drawing mode (`m ≠ ONLY`). -/
def cardTrace (cfg : Config) (n m : Nat) : List Ev :=
  (List.range (nBlocks cfg n)).flatMap (fun b => blockEvs cfg n m (b * cfg.CARDS_PER_PAGE))

/-- Events of one loop iteration in `ONLY` mode: outline only, plus dots
and a page break at page boundaries; `front` never flips. -/
def onlyEv (cfg : Config) (n i : Nat) : List Ev :=
  frontEv cfg 2 i
    ++ (if (i + 1) % cfg.CARDS_PER_PAGE = 0 ∨ i = n - 1
        then pageDots cfg ++ [Ev.page] else [])

/-- Reference trace of a whole run in `ONLY` mode. -/
def onlyTrace (cfg : Config) (n : Nat) : List Ev :=
  (List.range n).flatMap (onlyEv cfg n)

/-- Page contents of a trace: the event runs delimited by `show_page`
calls.  A trailing nonempty run is a page too: cairo emits any pending
content as a final page when `surface.finish()` runs. -/
def splitPagesAux : List Ev → List Ev → List (List Ev)
  | [], acc => if acc.isEmpty then [] else [acc.reverse]
  | e :: t, acc =>
    if e = Ev.page then acc.reverse :: splitPagesAux t []
    else splitPagesAux t (e :: acc)

/-- The pages of the emitted document, as lists of drawing events. -/
def splitPages (l : List Ev) : List (List Ev) := splitPagesAux l []

/-- Reference page contents of one page-block: its front page (fronts
followed by the alignment dots) and its back page (backs only). -/
def blockPages (cfg : Config) (n m lo : Nat) : List (List Ev) :=
  let hi := min (lo + cfg.CARDS_PER_PAGE) n
  [((List.range' lo (hi - lo)).flatMap (frontEv cfg m)) ++ pageDots cfg,
   (List.range' lo (hi - lo)).flatMap (backEv cfg m)]

/-! ## The shipped configuration (lines 17-37 of the script)

The script computes in floating point; these exact rational versions
produce identical integers everywhere they are consumed (all roundings are
far from ties).
-/

def PAGE_WIDTH : ℚ := 420 * 72 / 25.4

def PAGE_HEIGHT : ℚ := 297 * 72 / 25.4

def DOTS : Bool := true

def DOT_RADIUS : ℚ := if DOTS then 8 else 0

/-- `CARDS_HORI = round(PAGE_WIDTH - 2 * MARGIN - 4 * DOT_RADIUS) // WIDTH`. -/
def CARDS_HORI : Nat := (pyround (PAGE_WIDTH - 2 * 15 - 4 * DOT_RADIUS)).toNat / 240

/-- `CARDS_VERTI = round(PAGE_HEIGHT - 2 * MARGIN) // HEIGHT`. -/
def CARDS_VERTI : Nat := (pyround (PAGE_HEIGHT - 2 * 15)).toNat / 160

/-- The configuration shipped in the script: A3 pages, 240x160 cards,
margin 15, alignment dots of radius 8. -/
def repoCfg : Config where
  CARDS_HORI := CARDS_HORI
  CARDS_VERTI := CARDS_VERTI
  MARGIN := 15
  WIDTH := 240
  HEIGHT := 160
  DOT_RADIUS := DOT_RADIUS
  DOTS := DOTS
  PAGE_WIDTH := PAGE_WIDTH

/-! ## Lemmas about the text fitter -/

theorem mltRun_zero (extW : String → ℚ) (maxW : ℚ) (words : List String)
    (last : Option String) (acc : List String) :
    mltRun extW maxW 0 words last acc
      = if words.isEmpty then some (.ok acc) else none := rfl

theorem mltRun_succ_nil (extW : String → ℚ) (maxW : ℚ) (fuel : Nat)
    (last : Option String) (acc : List String) :
    mltRun extW maxW (fuel + 1) [] last acc = some (.ok acc) := rfl

theorem mltRun_succ_cons (extW : String → ℚ) (maxW : ℚ) (fuel : Nat)
    (w : String) (rest : List String) (last : Option String) (acc : List String) :
    mltRun extW maxW (fuel + 1) (w :: rest) last acc =
      match grow extW maxW w rest with
      | some (line, rest') => mltRun extW maxW fuel rest' (some line) (acc ++ [line])
      | none =>
        match last with
        | none => some .unboundLocal
        | some l => mltRun extW maxW fuel (w :: rest) (some l) (acc ++ [l]) := rfl

theorem grow_none_iff (extW : String → ℚ) (maxW : ℚ) (part : String)
    (rest : List String) :
    grow extW maxW part rest = none ↔ maxW < extW part := by
  cases rest with
  | nil =>
    unfold grow
    split
    · next h => simp [not_lt.2 h]
    · next h => simp [lt_of_not_le h]
  | cons w rs =>
    unfold grow
    split
    · next h =>
      cases hg : grow extW maxW (part ++ " " ++ w) rs <;>
        simp [hg, not_lt.2 h]
    · next h => simp [lt_of_not_le h]

/-- What one run of the inner loop commits: the line is the current word
followed by some consumed words `mid`, it fits, and if any words remain
then the line extended by the next word does not fit. -/
theorem grow_spec (extW : String → ℚ) (maxW : ℚ) :
    ∀ (rest : List String) (part line : String) (rest' : List String),
    grow extW maxW part rest = some (line, rest') →
    ∃ mid, rest = mid ++ rest' ∧
      line = List.foldl (fun a b => a ++ " " ++ b) part mid ∧
      extW line ≤ maxW ∧
      ∀ w' t, rest' = w' :: t → maxW < extW (line ++ " " ++ w') := by
  intro rest
  induction rest with
  | nil =>
    intro part line rest' h
    unfold grow at h
    split at h
    · next hfit =>
      obtain ⟨rfl, rfl⟩ : part = line ∧ ([] : List String) = rest' := by
        simpa using h
      exact ⟨[], by simp, rfl, hfit, by simp⟩
    · exact absurd h (by simp)
  | cons w rs ih =>
    intro part line rest' h
    unfold grow at h
    split at h
    · next hfit =>
      cases hg : grow extW maxW (part ++ " " ++ w) rs with
      | some r =>
        rw [hg] at h
        obtain ⟨l, r'⟩ := r
        obtain ⟨rfl, rfl⟩ : l = line ∧ r' = rest' := by simpa using h
        obtain ⟨mid, hmid, hline, hfits, hbound⟩ := ih _ _ _ hg
        exact ⟨w :: mid, by simp [hmid], hline, hfits, hbound⟩
      | none =>
        rw [hg] at h
        obtain ⟨rfl, rfl⟩ : part = line ∧ w :: rs = rest' := by simpa using h
        refine ⟨[], by simp, rfl, hfit, ?_⟩
        intro w' t ht
        obtain ⟨rfl, rfl⟩ : w = w' ∧ rs = t := by
          constructor <;> [exact (List.cons.injEq .. ▸ ht).1; exact (List.cons.injEq .. ▸ ht).2]
        exact (grow_none_iff ..).1 hg
    · exact absurd h (by simp)

/-- When the word starting a line does not fit on its own, the outer loop
repeats forever: `index` is never advanced again. -/
theorem mltRun_stuck (extW : String → ℚ) (maxW : ℚ) (w : String)
    (rest : List String) (hw : maxW < extW w) :
    ∀ (fuel : Nat) (l : String) (acc : List String),
    mltRun extW maxW fuel (w :: rest) (some l) acc = none := by
  intro fuel
  induction fuel with
  | zero => intro l acc; rw [mltRun_zero]; simp
  | succ fuel ih =>
    intro l acc
    rw [mltRun_succ_cons, (grow_none_iff ..).2 hw]
    exact ih l (acc ++ [l])

/-- Structure of every successful run of the outer loop: the words are
partitioned in order into nonempty chunks, each committed line is its
chunk joined with single spaces, each fits, and every chunk boundary is
forced (the next chunk's first word would overflow the line). -/
theorem mltRun_ok_spec (extW : String → ℚ) (maxW : ℚ) :
    ∀ (fuel : Nat) (words : List String) (last : Option String)
      (acc parts : List String),
    mltRun extW maxW fuel words last acc = some (.ok parts) →
    ∃ chunks : List (List String),
      chunks.flatten = words ∧
      (∀ ch ∈ chunks, ch ≠ [] ∧ extW (joinWords ch) ≤ maxW) ∧
      parts = acc ++ chunks.map joinWords ∧
      List.Chain' (fun a b => maxW < extW (joinWords a ++ " " ++ b.headI)) chunks := by
  intro fuel
  induction fuel with
  | zero =>
    intro words last acc parts h
    rw [mltRun_zero] at h
    split at h
    · next hw =>
      obtain rfl : acc = parts := by simpa using h
      exact ⟨[], by simp [List.isEmpty_iff.1 hw], by simp, by simp, by simp⟩
    · exact absurd h (by simp)
  | succ fuel ih =>
    intro words last acc parts h
    cases words with
    | nil =>
      obtain rfl : acc = parts := by simpa [mltRun_succ_nil] using h
      exact ⟨[], rfl, by simp, by simp, by simp⟩
    | cons w rest =>
      rw [mltRun_succ_cons] at h
      cases hg : grow extW maxW w rest with
      | some p =>
        obtain ⟨line, rest'⟩ := p
        rw [hg] at h
        have h' : mltRun extW maxW fuel rest' (some line) (acc ++ [line])
            = some (.ok parts) := h
        obtain ⟨chunks, hflat, hfit, hparts, hchain⟩ := ih _ _ _ _ h'
        obtain ⟨mid, hmid, hline, hfits, hbound⟩ := grow_spec extW maxW rest w line rest' hg
        have hjw : joinWords (w :: mid) = line := by
          rw [joinWords]; exact hline.symm
        refine ⟨(w :: mid) :: chunks, by simp [hflat, hmid], ?_, ?_, ?_⟩
        · intro ch hch
          rcases List.mem_cons.1 hch with rfl | hch
          · exact ⟨by simp, by rw [hjw]; exact hfits⟩
          · exact hfit ch hch
        · rw [hparts, List.map_cons, hjw]
          simp
        · rw [List.chain'_cons']
          refine ⟨?_, hchain⟩
          intro ch2 hch2
          have hcons : ch2 :: chunks.tail = chunks := List.cons_head?_tail hch2
          have hne : ch2 ≠ [] := (hfit ch2 (List.mem_of_mem_head? hch2)).1
          obtain ⟨y, ys, rfl⟩ := List.exists_cons_of_ne_nil hne
          have hrest' : rest' = y :: (ys ++ chunks.tail.flatten) := by
            rw [← hflat, ← hcons]; simp
          have hb := hbound y (ys ++ chunks.tail.flatten) hrest'
          rw [hjw]
          simpa using hb
      | none =>
        rw [hg] at h
        cases last with
        | none => simp at h
        | some l =>
          have hw : maxW < extW w := (grow_none_iff ..).1 hg
          have h' : mltRun extW maxW fuel (w :: rest) (some l) (acc ++ [l])
              = some (.ok parts) := h
          rw [mltRun_stuck extW maxW w rest hw fuel l (acc ++ [l])] at h'
          simp at h'

/-! ## Claims C5, C6, C7 (text fitter) -/

/-- C5 counterexample: with character-count measurement and
`max_width = 5`, the space-free 10-character term is NOT returned as a
single overflowing line; `multi_line_text` instead hits
`parts.append(last_part)` with `last_part` unassigned, an
`UnboundLocalError`. -/
theorem C5_counterexample :
    multi_line_text (fun s => (s.length : ℚ)) 5 "aaaaaaaaaa" = some .unboundLocal ∧
    multi_line_text (fun s => (s.length : ℚ)) 5 "aaaaaaaaaa"
      ≠ some (.ok ["aaaaaaaaaa"]) := by
  constructor
  · decide
  · decide

/-- C5 (amended): a word measuring wider than `max_width` at the start of
a line is not handled gracefully.  If it is the first word of the text the
fitter raises `UnboundLocalError`; if it starts a later line, the outer
loop never advances `index` again and diverges (appending the previous
line forever).  The claimed overflowing-single-word line is never
produced. -/
theorem C5_overwide_word_fails :
    (∀ (extW : String → ℚ) (maxW : ℚ) (text w : String) (rest : List String),
      pySplit text = w :: rest → maxW < extW w →
      multi_line_text extW maxW text = some .unboundLocal) ∧
    (∀ (extW : String → ℚ) (maxW : ℚ) (fuel : Nat) (w l : String)
      (rest acc : List String), maxW < extW w →
      mltRun extW maxW fuel (w :: rest) (some l) acc = none) := by
  constructor
  · intro extW maxW text w rest hsplit hw
    unfold multi_line_text
    rw [hsplit, List.length_cons, mltRun_succ_cons, (grow_none_iff ..).2 hw]
  · intro extW maxW fuel w l rest acc hw
    exact mltRun_stuck extW maxW w rest hw fuel l acc

theorem C5_overwide_word_fails_witness :
    multi_line_text (fun s => (s.length : ℚ)) 3 "abcd" = some .unboundLocal ∧
    mltRun (fun s => (s.length : ℚ)) 3 7 ["abcd", "x"] (some "yy") [] = none :=
  ⟨C5_overwide_word_fails.1 (fun s => (s.length : ℚ)) 3 "abcd" "abcd" []
      (by decide) (by decide),
   C5_overwide_word_fails.2 (fun s => (s.length : ℚ)) 3 7 "abcd" "yy" ["x"] []
      (by decide)⟩

/-- C6: whenever the fitter returns, the returned lines partition the
original word sequence, in order, into nonempty groups, each line being
its group rejoined with single spaces — no word dropped, none
duplicated. -/
theorem C6_lines_partition_words (extW : String → ℚ) (maxW : ℚ)
    (text : String) (parts : List String)
    (h : multi_line_text extW maxW text = some (.ok parts)) :
    ∃ chunks : List (List String),
      chunks.flatten = pySplit text ∧ (∀ ch ∈ chunks, ch ≠ []) ∧
      parts = chunks.map joinWords := by
  obtain ⟨chunks, hflat, hfit, hparts, _⟩ :=
    mltRun_ok_spec extW maxW ((pySplit text).length + 1) (pySplit text) none [] parts h
  exact ⟨chunks, hflat, fun ch hch => (hfit ch hch).1, by simpa using hparts⟩

theorem C6_lines_partition_words_witness :
    ∃ chunks : List (List String),
      chunks.flatten = pySplit "ab cd ef gh" ∧ (∀ ch ∈ chunks, ch ≠ []) ∧
      ["ab cd", "ef gh"] = chunks.map joinWords :=
  C6_lines_partition_words (fun s => (s.length : ℚ)) 7 "ab cd ef gh"
    ["ab cd", "ef gh"] (by decide)

/-- C7: every committed line fits within `max_width` (the claim's
single-word exception is vacuous on successful runs: an over-wide word at
a line start crashes or diverges instead of being committed, cf. C5), and
lines are closed greedily: each line is a maximal group, the next word
after each committed line overflowing it. -/
theorem C7_greedy_lines_fit (extW : String → ℚ) (maxW : ℚ)
    (text : String) (parts : List String)
    (h : multi_line_text extW maxW text = some (.ok parts)) :
    (∀ line ∈ parts, extW line ≤ maxW) ∧
    ∃ chunks : List (List String),
      chunks.flatten = pySplit text ∧ parts = chunks.map joinWords ∧
      List.Chain' (fun a b => maxW < extW (joinWords a ++ " " ++ b.headI)) chunks := by
  obtain ⟨chunks, hflat, hfit, hparts, hchain⟩ :=
    mltRun_ok_spec extW maxW ((pySplit text).length + 1) (pySplit text) none [] parts h
  simp only [List.nil_append] at hparts
  constructor
  · intro line hline
    rw [hparts] at hline
    obtain ⟨ch, hch, rfl⟩ := List.mem_map.1 hline
    exact (hfit ch hch).2
  · exact ⟨chunks, hflat, hparts, hchain⟩

theorem C7_greedy_lines_fit_witness :
    (∀ line ∈ ["ab cd", "ef gh"], (fun s => (s.length : ℚ)) line ≤ 7) ∧
    ∃ chunks : List (List String),
      chunks.flatten = pySplit "ab cd ef gh" ∧
      ["ab cd", "ef gh"] = chunks.map joinWords ∧
      List.Chain' (fun a b =>
        7 < (fun s => (s.length : ℚ)) (joinWords a ++ " " ++ b.headI)) chunks :=
  C7_greedy_lines_fit (fun s => (s.length : ℚ)) 7 "ab cd ef gh"
    ["ab cd", "ef gh"] (by decide)

/-! ## Lemmas about the layout loop -/

section Layout

variable (cfg : Config) (n m : Nat)

theorem loopRun_zero (s : St) :
    loopRun cfg n m 0 s = if s.i < n then none else some [] := rfl

theorem loopRun_succ (f : Nat) (s : St) :
    loopRun cfg n m (f + 1) s =
      if s.i < n then
        (loopRun cfg n m f (stepFn cfg n m s).2).map ((stepFn cfg n m s).1 ++ ·)
      else some [] := rfl

theorem loopRun_done (f : Nat) (s : St) (h : n ≤ s.i) :
    loopRun cfg n m f s = some [] := by
  cases f with
  | zero => rw [loopRun_zero, if_neg (Nat.not_lt.2 h)]
  | succ f => rw [loopRun_succ, if_neg (Nat.not_lt.2 h)]

theorem loopRun_step (f : Nat) (s : St) (h : s.i < n) :
    loopRun cfg n m (f + 1) s =
      (loopRun cfg n m f (stepFn cfg n m s).2).map ((stepFn cfg n m s).1 ++ ·) := by
  rw [loopRun_succ, if_pos h]

theorem loopRun_mono : ∀ (f f' : Nat) (s : St) (t : List Ev),
    loopRun cfg n m f s = some t → f ≤ f' → loopRun cfg n m f' s = some t := by
  intro f
  induction f with
  | zero =>
    intro f' s t h _
    rw [loopRun_zero] at h
    split at h
    · exact absurd h (by simp)
    · next hn =>
      obtain rfl : [] = t := by simpa using h
      exact loopRun_done cfg n m f' s (Nat.not_lt.1 hn)
  | succ f ih =>
    intro f' s t h hle
    rw [loopRun_succ] at h
    split at h
    · next hn =>
      obtain ⟨t', ht', rfl⟩ : ∃ t', loopRun cfg n m f (stepFn cfg n m s).2 = some t' ∧
          (stepFn cfg n m s).1 ++ t' = t := by
        cases hr : loopRun cfg n m f (stepFn cfg n m s).2 with
        | none => rw [hr] at h; exact absurd h (by simp)
        | some t' => rw [hr] at h; exact ⟨t', rfl, by simpa using h⟩
      obtain ⟨f'', rfl⟩ : ∃ f'', f' = f'' + 1 :=
        ⟨f' - 1, by omega⟩
      rw [loopRun_step cfg n m f'' s hn, ih f'' _ t' ht' (by omega)]
      rfl
    · next hn =>
      obtain rfl : [] = t := by simpa using h
      exact loopRun_done cfg n m f' s (Nat.not_lt.1 hn)

theorem optMap_assoc (a b : List Ev) (o : Option (List Ev)) :
    (o.map (b ++ ·)).map (a ++ ·) = o.map ((a ++ b) ++ ·) := by
  cases o <;> simp

theorem backHalf_page (evs1 : List Ev) (i : Nat)
    (h : (i + 1) % cfg.CARDS_PER_PAGE = 0) :
    backHalf cfg m evs1 i = ((evs1 ++ backEv cfg m i) ++ [Ev.page], ⟨true, i + 1⟩) := by
  simp [backHalf, h]

theorem backHalf_mid (evs1 : List Ev) (i : Nat)
    (h : (i + 1) % cfg.CARDS_PER_PAGE ≠ 0) :
    backHalf cfg m evs1 i = (evs1 ++ backEv cfg m i, ⟨false, i + 1⟩) := by
  simp [backHalf, h]

theorem stepFn_front_mid (i : Nat)
    (h1 : (i + 1) % cfg.CARDS_PER_PAGE ≠ 0) (h2 : i ≠ n - 1) :
    stepFn cfg n m ⟨true, i⟩ = (frontEv cfg m i, ⟨true, i + 1⟩) := by
  simp [stepFn, h1, h2]

theorem stepFn_front_full (i : Nat) (hm : m ≠ 2)
    (h1 : (i + 1) % cfg.CARDS_PER_PAGE = 0) :
    stepFn cfg n m ⟨true, i⟩ =
      backHalf cfg m (frontEv cfg m i ++ (pageDots cfg ++ [Ev.page]))
        (i - (cfg.CARDS_PER_PAGE - 1)) := by
  simp [stepFn, h1, hm]

theorem stepFn_front_last (i : Nat) (hm : m ≠ 2)
    (h1 : (i + 1) % cfg.CARDS_PER_PAGE ≠ 0) (h2 : i = n - 1) :
    stepFn cfg n m ⟨true, i⟩ =
      backHalf cfg m (frontEv cfg m i ++ (pageDots cfg ++ [Ev.page]))
        (i - i % cfg.CARDS_PER_PAGE) := by
  subst h2
  simp [stepFn, h1, hm]

theorem stepFn_back (i : Nat) :
    stepFn cfg n m ⟨false, i⟩ = backHalf cfg m [] i := by
  simp [stepFn]

theorem stepFn_only (i : Nat) :
    stepFn cfg n 2 ⟨true, i⟩ = (onlyEv cfg n i, ⟨true, i + 1⟩) := by
  simp [stepFn, onlyEv]

/-- A run of front placements with no page boundary: `i` advances one card
per iteration and `front` stays set. -/
theorem frontSeg : ∀ (k i f : Nat),
    (∀ j < k, (i + j + 1) % cfg.CARDS_PER_PAGE ≠ 0 ∧ i + j ≠ n - 1) →
    i + k ≤ n →
    loopRun cfg n m (f + k) ⟨true, i⟩ =
      (loopRun cfg n m f ⟨true, i + k⟩).map
        (((List.range' i k).flatMap (frontEv cfg m)) ++ ·) := by
  intro k
  induction k with
  | zero => intro i f _ _; simp
  | succ k ih =>
    intro i f hk hin
    have hi : i < n := by omega
    have h0 := hk 0 (by omega)
    have hsum : i + (k + 1) = (i + 1) + k := by omega
    rw [show f + (k + 1) = (f + k) + 1 by omega, loopRun_step cfg n m _ _ hi,
      stepFn_front_mid cfg n m i (by simpa using h0.1) (by simpa using h0.2)]
    rw [ih (i + 1) f ?_ (by omega), optMap_assoc, List.range'_succ,
      List.flatMap_cons, hsum]
    intro j hj
    have h := hk (j + 1) (by omega)
    have e1 : i + 1 + j + 1 = i + (j + 1) + 1 := by omega
    have e2 : i + 1 + j = i + (j + 1) := by omega
    exact ⟨e1 ▸ h.1, e2 ▸ h.2⟩

/-- A run of back placements with no page boundary: `i` advances one card
per iteration and `front` stays clear. -/
theorem backSeg : ∀ (k i f : Nat),
    (∀ j < k, (i + j + 1) % cfg.CARDS_PER_PAGE ≠ 0) →
    i + k ≤ n →
    loopRun cfg n m (f + k) ⟨false, i⟩ =
      (loopRun cfg n m f ⟨false, i + k⟩).map
        (((List.range' i k).flatMap (backEv cfg m)) ++ ·) := by
  intro k
  induction k with
  | zero => intro i f _ _; simp
  | succ k ih =>
    intro i f hk hin
    have hi : i < n := by omega
    have h0 := hk 0 (by omega)
    have hsum : i + (k + 1) = (i + 1) + k := by omega
    rw [show f + (k + 1) = (f + k) + 1 by omega, loopRun_step cfg n m _ _ hi,
      stepFn_back, backHalf_mid cfg m [] i (by simpa using h0), List.nil_append]
    rw [ih (i + 1) f ?_ (by omega), optMap_assoc, List.range'_succ,
      List.flatMap_cons, hsum]
    intro j hj
    have h := hk (j + 1) (by omega)
    have e1 : i + 1 + j + 1 = i + (j + 1) + 1 := by omega
    exact e1 ▸ h

/-- In `ONLY` mode the `front` flag never clears: the loop is a single
forward sweep. -/
theorem onlySeg : ∀ (k i f : Nat), i + k = n →
    loopRun cfg n 2 (f + k) ⟨true, i⟩ =
      (loopRun cfg n 2 f ⟨true, n⟩).map
        (((List.range' i k).flatMap (onlyEv cfg n)) ++ ·) := by
  intro k
  induction k with
  | zero => intro i f h; subst h; simp
  | succ k ih =>
    intro i f h
    have hi : i < n := by omega
    rw [show f + (k + 1) = (f + k) + 1 by omega, loopRun_step cfg n 2 _ _ hi,
      stepFn_only, ih (i + 1) f (by omega), optMap_assoc, List.range'_succ,
      List.flatMap_cons]

theorem mul_add_mod_lt (b P x : Nat) (hx : x < P) : (b * P + x) % P = x := by
  rw [Nat.mul_comm, Nat.mul_add_mod, Nat.mod_eq_of_lt hx]

theorem flatMap_range'_concat (F : Nat → List Ev) (s k : Nat) :
    (List.range' s (k + 1)).flatMap F = (List.range' s k).flatMap F ++ F (s + k) := by
  rw [List.range'_1_concat, List.flatMap_append, List.flatMap_singleton]

theorem flatMap_range'_cons (F : Nat → List Ev) (s k : Nat) :
    (List.range' s (k + 1)).flatMap F = F s ++ (List.range' (s + 1) k).flatMap F := by
  rw [List.range'_succ, List.flatMap_cons]

/-- One full page-block in a card-drawing mode: all its fronts, the dots
and a page break, a rewind, all its backs and a second page break, ending
at the next block start.  Consumes `2 * CARDS_PER_PAGE - 1` iterations
(the page-turn iteration draws both the last front and the first back). -/
theorem blockRunFull (hm : m ≠ 2) (hP : 0 < cfg.CARDS_PER_PAGE) (b f : Nat)
    (hfull : b * cfg.CARDS_PER_PAGE + cfg.CARDS_PER_PAGE ≤ n) :
    loopRun cfg n m (f + (2 * cfg.CARDS_PER_PAGE - 1)) ⟨true, b * cfg.CARDS_PER_PAGE⟩ =
      (loopRun cfg n m f ⟨true, b * cfg.CARDS_PER_PAGE + cfg.CARDS_PER_PAGE⟩).map
        ((blockEvs cfg n m (b * cfg.CARDS_PER_PAGE)) ++ ·) := by
  have hmod0 : (b * cfg.CARDS_PER_PAGE + cfg.CARDS_PER_PAGE) % cfg.CARDS_PER_PAGE = 0 := by
    rw [show b * cfg.CARDS_PER_PAGE + cfg.CARDS_PER_PAGE
        = (b + 1) * cfg.CARDS_PER_PAGE by ring, Nat.mul_mod_left]
  have hblock : blockEvs cfg n m (b * cfg.CARDS_PER_PAGE) =
      ((List.range' (b * cfg.CARDS_PER_PAGE) cfg.CARDS_PER_PAGE).flatMap (frontEv cfg m))
        ++ pageDots cfg ++ [Ev.page]
        ++ ((List.range' (b * cfg.CARDS_PER_PAGE) cfg.CARDS_PER_PAGE).flatMap (backEv cfg m))
        ++ [Ev.page] := by
    simp only [blockEvs]
    rw [min_eq_left hfull, Nat.add_sub_cancel_left, if_pos hmod0]
  rcases Nat.lt_or_ge cfg.CARDS_PER_PAGE 2 with hP1 | hP2
  · -- CARDS_PER_PAGE = 1: a single iteration handles the whole block
    have h1 : cfg.CARDS_PER_PAGE = 1 := by omega
    have hi : b * cfg.CARDS_PER_PAGE < n := by omega
    rw [show f + (2 * cfg.CARDS_PER_PAGE - 1) = f + 1 by omega,
      loopRun_step cfg n m f _ hi,
      stepFn_front_full cfg n m _ hm (by rw [h1, Nat.mod_one]),
      backHalf_page cfg m _ _ (by rw [h1, Nat.mod_one]),
      show b * cfg.CARDS_PER_PAGE - (cfg.CARDS_PER_PAGE - 1)
        = b * cfg.CARDS_PER_PAGE by omega,
      show b * cfg.CARDS_PER_PAGE + 1
        = b * cfg.CARDS_PER_PAGE + cfg.CARDS_PER_PAGE by omega]
    rw [hblock, h1]
    simp [List.append_assoc]
  · -- CARDS_PER_PAGE ≥ 2
    have he : b * cfg.CARDS_PER_PAGE + (cfg.CARDS_PER_PAGE - 1) < n := by omega
    rw [show f + (2 * cfg.CARDS_PER_PAGE - 1)
        = (f + cfg.CARDS_PER_PAGE) + (cfg.CARDS_PER_PAGE - 1) by omega,
      frontSeg cfg n m (cfg.CARDS_PER_PAGE - 1) (b * cfg.CARDS_PER_PAGE)
        (f + cfg.CARDS_PER_PAGE) ?_ (by omega)]
    rotate_left
    · intro j hj
      refine ⟨?_, by omega⟩
      rw [show b * cfg.CARDS_PER_PAGE + j + 1
          = b * cfg.CARDS_PER_PAGE + (j + 1) by omega,
        mul_add_mod_lt b _ _ (by omega)]
      omega
    rw [show f + cfg.CARDS_PER_PAGE = ((f + 1) + (cfg.CARDS_PER_PAGE - 2)) + 1 by omega,
      loopRun_step cfg n m _ _ he,
      stepFn_front_full cfg n m _ hm (by
        rw [show b * cfg.CARDS_PER_PAGE + (cfg.CARDS_PER_PAGE - 1) + 1
            = b * cfg.CARDS_PER_PAGE + cfg.CARDS_PER_PAGE by omega]
        exact hmod0),
      show b * cfg.CARDS_PER_PAGE + (cfg.CARDS_PER_PAGE - 1)
          - (cfg.CARDS_PER_PAGE - 1) = b * cfg.CARDS_PER_PAGE by omega,
      backHalf_mid cfg m _ _ (by
        rw [mul_add_mod_lt b _ _ (by omega)]; omega),
      backSeg cfg n m (cfg.CARDS_PER_PAGE - 2) (b * cfg.CARDS_PER_PAGE + 1)
        (f + 1) ?_ (by omega)]
    rotate_left
    · intro j hj
      rw [show b * cfg.CARDS_PER_PAGE + 1 + j + 1
          = b * cfg.CARDS_PER_PAGE + (j + 2) by omega,
        mul_add_mod_lt b _ _ (by omega)]
      omega
    rw [show b * cfg.CARDS_PER_PAGE + 1 + (cfg.CARDS_PER_PAGE - 2)
        = b * cfg.CARDS_PER_PAGE + (cfg.CARDS_PER_PAGE - 1) by omega,
      loopRun_step cfg n m f _ he,
      stepFn_back, backHalf_page cfg m _ _ (by
        rw [show b * cfg.CARDS_PER_PAGE + (cfg.CARDS_PER_PAGE - 1) + 1
            = b * cfg.CARDS_PER_PAGE + cfg.CARDS_PER_PAGE by omega]
        exact hmod0),
      show b * cfg.CARDS_PER_PAGE + (cfg.CARDS_PER_PAGE - 1) + 1
          = b * cfg.CARDS_PER_PAGE + cfg.CARDS_PER_PAGE by omega]
    rw [optMap_assoc, optMap_assoc, optMap_assoc]
    have hfronts := flatMap_range'_concat (frontEv cfg m) (b * cfg.CARDS_PER_PAGE)
      (cfg.CARDS_PER_PAGE - 1)
    rw [show cfg.CARDS_PER_PAGE - 1 + 1 = cfg.CARDS_PER_PAGE by omega] at hfronts
    have hb1 := flatMap_range'_cons (backEv cfg m) (b * cfg.CARDS_PER_PAGE)
      (cfg.CARDS_PER_PAGE - 1)
    rw [show cfg.CARDS_PER_PAGE - 1 + 1 = cfg.CARDS_PER_PAGE by omega] at hb1
    have hb2 := flatMap_range'_concat (backEv cfg m) (b * cfg.CARDS_PER_PAGE + 1)
      (cfg.CARDS_PER_PAGE - 2)
    rw [show cfg.CARDS_PER_PAGE - 2 + 1 = cfg.CARDS_PER_PAGE - 1 by omega,
      show b * cfg.CARDS_PER_PAGE + 1 + (cfg.CARDS_PER_PAGE - 2)
        = b * cfg.CARDS_PER_PAGE + (cfg.CARDS_PER_PAGE - 1) by omega] at hb2
    rw [hblock, hfronts, hb1, hb2]
    simp [List.append_assoc]

/-- The final, partial page-block in a card-drawing mode: its fronts, the
dots and a page break, a rewind, then its backs — after which the loop
exits with `front` still false, never flushing the last back page
(`surface.finish()` does that outside `draw_cards`). -/
theorem blockRunLast (hm : m ≠ 2) (hP : 0 < cfg.CARDS_PER_PAGE) (b f : Nat)
    (hlo : b * cfg.CARDS_PER_PAGE < n)
    (hpart : n < b * cfg.CARDS_PER_PAGE + cfg.CARDS_PER_PAGE) :
    loopRun cfg n m (f + (2 * (n - b * cfg.CARDS_PER_PAGE) - 1))
        ⟨true, b * cfg.CARDS_PER_PAGE⟩
      = some (blockEvs cfg n m (b * cfg.CARDS_PER_PAGE)) := by
  have hP2 : 2 ≤ cfg.CARDS_PER_PAGE := by omega
  have hnmod : n % cfg.CARDS_PER_PAGE = n - b * cfg.CARDS_PER_PAGE := by
    conv_lhs => rw [show n = b * cfg.CARDS_PER_PAGE
      + (n - b * cfg.CARDS_PER_PAGE) by omega]
    rw [mul_add_mod_lt b _ _ (by omega)]
  have hemod : (n - 1) % cfg.CARDS_PER_PAGE = n - b * cfg.CARDS_PER_PAGE - 1 := by
    conv_lhs => rw [show n - 1 = b * cfg.CARDS_PER_PAGE
      + (n - b * cfg.CARDS_PER_PAGE - 1) by omega]
    rw [mul_add_mod_lt b _ _ (by omega)]
  have hblock : blockEvs cfg n m (b * cfg.CARDS_PER_PAGE) =
      ((List.range' (b * cfg.CARDS_PER_PAGE) (n - b * cfg.CARDS_PER_PAGE)).flatMap
          (frontEv cfg m))
        ++ pageDots cfg ++ [Ev.page]
        ++ ((List.range' (b * cfg.CARDS_PER_PAGE) (n - b * cfg.CARDS_PER_PAGE)).flatMap
          (backEv cfg m)) := by
    simp only [blockEvs]
    rw [min_eq_right (by omega : n ≤ b * cfg.CARDS_PER_PAGE + cfg.CARDS_PER_PAGE),
      if_neg (by rw [hnmod]; omega), List.append_nil]
  rw [show f + (2 * (n - b * cfg.CARDS_PER_PAGE) - 1)
      = (f + (n - b * cfg.CARDS_PER_PAGE)) + ((n - b * cfg.CARDS_PER_PAGE) - 1) by omega,
    frontSeg cfg n m ((n - b * cfg.CARDS_PER_PAGE) - 1) (b * cfg.CARDS_PER_PAGE)
      (f + (n - b * cfg.CARDS_PER_PAGE)) ?_ (by omega)]
  rotate_left
  · intro j hj
    refine ⟨?_, by omega⟩
    rw [show b * cfg.CARDS_PER_PAGE + j + 1
        = b * cfg.CARDS_PER_PAGE + (j + 1) by omega,
      mul_add_mod_lt b _ _ (by omega)]
    omega
  rw [show b * cfg.CARDS_PER_PAGE + ((n - b * cfg.CARDS_PER_PAGE) - 1) = n - 1 by omega,
    show f + (n - b * cfg.CARDS_PER_PAGE)
      = (f + ((n - b * cfg.CARDS_PER_PAGE) - 1)) + 1 by omega,
    loopRun_step cfg n m _ _ (by omega : n - 1 < n),
    stepFn_front_last cfg n m (n - 1) hm
      (by rw [show n - 1 + 1 = n by omega, hnmod]; omega) rfl,
    hemod,
    show n - 1 - (n - b * cfg.CARDS_PER_PAGE - 1) = b * cfg.CARDS_PER_PAGE by omega,
    backHalf_mid cfg m _ _ (by rw [mul_add_mod_lt b _ _ (by omega)]; omega),
    backSeg cfg n m ((n - b * cfg.CARDS_PER_PAGE) - 1) (b * cfg.CARDS_PER_PAGE + 1)
      f ?_ (by omega)]
  rotate_left
  · intro j hj
    rw [show b * cfg.CARDS_PER_PAGE + 1 + j + 1
        = b * cfg.CARDS_PER_PAGE + (j + 2) by omega,
      mul_add_mod_lt b _ _ (by omega)]
    omega
  rw [show b * cfg.CARDS_PER_PAGE + 1 + ((n - b * cfg.CARDS_PER_PAGE) - 1) = n by omega,
    loopRun_done cfg n m f ⟨false, n⟩ (Nat.le_refl n),
    optMap_assoc, optMap_assoc]
  have hfronts := flatMap_range'_concat (frontEv cfg m) (b * cfg.CARDS_PER_PAGE)
    ((n - b * cfg.CARDS_PER_PAGE) - 1)
  rw [show (n - b * cfg.CARDS_PER_PAGE) - 1 + 1 = n - b * cfg.CARDS_PER_PAGE by omega,
    show b * cfg.CARDS_PER_PAGE + ((n - b * cfg.CARDS_PER_PAGE) - 1) = n - 1 by omega]
    at hfronts
  have hbacks := flatMap_range'_cons (backEv cfg m) (b * cfg.CARDS_PER_PAGE)
    ((n - b * cfg.CARDS_PER_PAGE) - 1)
  rw [show (n - b * cfg.CARDS_PER_PAGE) - 1 + 1 = n - b * cfg.CARDS_PER_PAGE by omega]
    at hbacks
  rw [hblock, hfronts, hbacks]
  simp [List.append_assoc]

theorem nBlocks_le_iff (hP : 0 < cfg.CARDS_PER_PAGE) (b : Nat) :
    nBlocks cfg n ≤ b ↔ n ≤ b * cfg.CARDS_PER_PAGE := by
  unfold nBlocks
  rw [Nat.div_le_iff_le_mul_add_pred hP, Nat.mul_comm]
  omega

/-- The loop, started at a block boundary with enough fuel, emits exactly
the remaining blocks' reference traces. -/
theorem blocksRun (hm : m ≠ 2) (hP : 0 < cfg.CARDS_PER_PAGE) :
    ∀ (B b f : Nat), n ≤ (b + B) * cfg.CARDS_PER_PAGE →
    2 * (n - b * cfg.CARDS_PER_PAGE) ≤ f →
    loopRun cfg n m f ⟨true, b * cfg.CARDS_PER_PAGE⟩ =
      some ((List.range' b (nBlocks cfg n - b)).flatMap
        (fun j => blockEvs cfg n m (j * cfg.CARDS_PER_PAGE))) := by
  intro B
  induction B with
  | zero =>
    intro b f hB _
    rw [Nat.add_zero] at hB
    rw [loopRun_done cfg n m f _ hB,
      show nBlocks cfg n - b = 0 by
        have := (nBlocks_le_iff cfg n hP b).2 hB; omega]
    simp
  | succ B ih =>
    intro b f hB hf
    by_cases hb : n ≤ b * cfg.CARDS_PER_PAGE
    · rw [loopRun_done cfg n m f _ hb,
        show nBlocks cfg n - b = 0 by
          have := (nBlocks_le_iff cfg n hP b).2 hb; omega]
      simp
    · push_neg at hb
      have hblt : b < nBlocks cfg n := by
        by_contra hc
        push_neg at hc
        exact absurd ((nBlocks_le_iff cfg n hP b).1 (by omega)) (by omega)
      have hrange : nBlocks cfg n - b = (nBlocks cfg n - (b + 1)) + 1 := by omega
      have he : (b + 1) * cfg.CARDS_PER_PAGE
          = b * cfg.CARDS_PER_PAGE + cfg.CARDS_PER_PAGE := by ring
      by_cases hfull : b * cfg.CARDS_PER_PAGE + cfg.CARDS_PER_PAGE ≤ n
      · obtain ⟨f', rfl⟩ : ∃ f', f = f' + (2 * cfg.CARDS_PER_PAGE - 1) :=
          ⟨f - (2 * cfg.CARDS_PER_PAGE - 1), by omega⟩
        rw [blockRunFull cfg n m hm hP b f' hfull, show
            b * cfg.CARDS_PER_PAGE + cfg.CARDS_PER_PAGE
              = (b + 1) * cfg.CARDS_PER_PAGE from he.symm,
          ih (b + 1) f'
            (by rw [show b + 1 + B = b + (B + 1) by omega]; exact hB)
            (by omega),
          hrange, List.range'_succ, List.flatMap_cons]
        simp
      · push_neg at hfull
        have h1 := blockRunLast cfg n m hm hP b 0 hb hfull
        rw [Nat.zero_add] at h1
        have h2 := loopRun_mono cfg n m _ f _ _ h1 (by omega)
        have hnb : nBlocks cfg n - b = 1 := by
          have h3 : nBlocks cfg n ≤ b + 1 :=
            (nBlocks_le_iff cfg n hP (b + 1)).2 (by omega)
          omega
        rw [h2, hnb]
        simp

/-- Main trace characterization in a card-drawing mode. -/
theorem draw_cards_eq_cardTrace (hm : m ≠ 2) (hH : 0 < cfg.CARDS_HORI)
    (hV : 0 < cfg.CARDS_VERTI) :
    draw_cards cfg n m = some (cardTrace cfg n m) := by
  have hP : 0 < cfg.CARDS_PER_PAGE := Nat.mul_pos hH hV
  have h := blocksRun cfg n m hm hP n 0 (2 * n + 1)
    (by rw [Nat.zero_add]; exact Nat.le_mul_of_pos_right n hP) (by omega)
  rw [Nat.zero_mul] at h
  unfold draw_cards cardTrace
  rw [h, Nat.sub_zero, ← List.range_eq_range']

/-- Main trace characterization in `ONLY` mode. -/
theorem draw_cards_eq_onlyTrace :
    draw_cards cfg n 2 = some (onlyTrace cfg n) := by
  unfold draw_cards
  rw [show 2 * n + 1 = (n + 1) + n by omega, onlySeg cfg n n 0 (n + 1) (by omega),
    loopRun_done cfg n 2 (n + 1) ⟨true, n⟩ (Nat.le_refl n)]
  unfold onlyTrace
  rw [← List.range_eq_range']
  simp

/-! ### Shape of the events in the reference traces -/

theorem isPageEv_frontEv (i : Nat) (e : Ev) (he : e ∈ frontEv cfg m i) :
    isPageEv e = false := by
  unfold frontEv at he
  rcases List.mem_append.1 he with h | h <;> split at h <;> simp at h <;>
    subst h <;> rfl

theorem isPageEv_backEv (i : Nat) (e : Ev) (he : e ∈ backEv cfg m i) :
    isPageEv e = false := by
  unfold backEv at he
  rcases List.mem_append.1 he with h | h
  · split at h <;> simp at h
    subst h; rfl
  · simp at h; subst h; rfl

theorem isPageEv_pageDots (e : Ev) (he : e ∈ pageDots cfg) :
    isPageEv e = false := by
  unfold pageDots at he
  split at he <;> simp at he
  rcases he with h | h | h <;> subst h <;> rfl

theorem frontsOf_append (l1 l2 : List Ev) :
    frontsOf (l1 ++ l2) = frontsOf l1 ++ frontsOf l2 :=
  List.filterMap_append l1 l2 _

theorem backsOf_append (l1 l2 : List Ev) :
    backsOf (l1 ++ l2) = backsOf l1 ++ backsOf l2 :=
  List.filterMap_append l1 l2 _

theorem frontsOf_flatMap (l : List Nat) (g : Nat → List Ev) :
    frontsOf (l.flatMap g) = l.flatMap (fun a => frontsOf (g a)) :=
  List.filterMap_flatMap l g _

theorem backsOf_flatMap (l : List Nat) (g : Nat → List Ev) :
    backsOf (l.flatMap g) = l.flatMap (fun a => backsOf (g a)) :=
  List.filterMap_flatMap l g _

theorem frontsOf_frontEv (hm : m ≠ 2) (i : Nat) :
    frontsOf (frontEv cfg m i) = [i] := by
  by_cases h0 : m = 0 <;> simp [frontsOf, frontEv, h0, hm]

theorem frontsOf_backEv (i : Nat) : frontsOf (backEv cfg m i) = [] := by
  by_cases h0 : m = 0 <;> simp [frontsOf, backEv, h0]

theorem frontsOf_pageDots : frontsOf (pageDots cfg) = [] := by
  unfold pageDots
  split <;> simp [frontsOf]

theorem backsOf_frontEv (i : Nat) : backsOf (frontEv cfg m i) = [] := by
  by_cases h0 : m = 0 <;> by_cases h2 : m = 2 <;> simp [backsOf, frontEv, h0, h2]

theorem backsOf_backEv (i : Nat) : backsOf (backEv cfg m i) = [i] := by
  by_cases h0 : m = 0 <;> simp [backsOf, backEv, h0]

theorem backsOf_pageDots : backsOf (pageDots cfg) = [] := by
  unfold pageDots
  split <;> simp [backsOf]

theorem frontsOf_nil : frontsOf [] = [] := rfl

theorem backsOf_nil : backsOf [] = [] := rfl

theorem frontsOf_page : frontsOf [Ev.page] = [] := rfl

theorem backsOf_page : backsOf [Ev.page] = [] := rfl

theorem frontsOf_cons_page (l : List Ev) : frontsOf (Ev.page :: l) = frontsOf l := rfl

theorem backsOf_cons_page (l : List Ev) : backsOf (Ev.page :: l) = backsOf l := rfl

theorem flatMap_nil_fun (l : List Nat) :
    (l.flatMap fun _ => ([] : List Nat)) = [] := by
  induction l <;> simp_all

theorem frontsOf_blockEvs (hm : m ≠ 2) (lo : Nat) :
    frontsOf (blockEvs cfg n m lo) =
      List.range' lo (min (lo + cfg.CARDS_PER_PAGE) n - lo) := by
  simp only [blockEvs]
  simp [frontsOf_append, frontsOf_flatMap, frontsOf_frontEv cfg m hm,
    frontsOf_backEv, frontsOf_pageDots, frontsOf_page, frontsOf_nil,
    frontsOf_cons_page, flatMap_nil_fun, apply_ite frontsOf]

theorem backsOf_blockEvs (lo : Nat) :
    backsOf (blockEvs cfg n m lo) =
      List.range' lo (min (lo + cfg.CARDS_PER_PAGE) n - lo) := by
  simp only [blockEvs]
  simp [backsOf_append, backsOf_flatMap, backsOf_frontEv, backsOf_backEv,
    backsOf_pageDots, backsOf_page, backsOf_nil, backsOf_cons_page,
    flatMap_nil_fun, apply_ite backsOf]

/-- Gluing the per-block index ranges back into `range n`. -/
theorem range_blocks (hP : 0 < cfg.CARDS_PER_PAGE) :
    ∀ (B b : Nat), n ≤ (b + B) * cfg.CARDS_PER_PAGE →
    (List.range' b (nBlocks cfg n - b)).flatMap
        (fun j => List.range' (j * cfg.CARDS_PER_PAGE)
          (min (j * cfg.CARDS_PER_PAGE + cfg.CARDS_PER_PAGE) n
            - j * cfg.CARDS_PER_PAGE)) =
      List.range' (b * cfg.CARDS_PER_PAGE) (n - b * cfg.CARDS_PER_PAGE) := by
  intro B
  induction B with
  | zero =>
    intro b hB
    rw [Nat.add_zero] at hB
    rw [show nBlocks cfg n - b = 0 by
        have := (nBlocks_le_iff cfg n hP b).2 hB; omega,
      show n - b * cfg.CARDS_PER_PAGE = 0 by omega]
    simp
  | succ B ih =>
    intro b hB
    by_cases hb : n ≤ b * cfg.CARDS_PER_PAGE
    · rw [show nBlocks cfg n - b = 0 by
          have := (nBlocks_le_iff cfg n hP b).2 hb; omega,
        show n - b * cfg.CARDS_PER_PAGE = 0 by omega]
      simp
    · push_neg at hb
      have hblt : b < nBlocks cfg n := by
        by_contra hc
        push_neg at hc
        exact absurd ((nBlocks_le_iff cfg n hP b).1 (by omega)) (by omega)
      have he : (b + 1) * cfg.CARDS_PER_PAGE
          = b * cfg.CARDS_PER_PAGE + cfg.CARDS_PER_PAGE := by ring
      rw [show nBlocks cfg n - b = (nBlocks cfg n - (b + 1)) + 1 by omega,
        List.range'_succ, List.flatMap_cons,
        ih (b + 1) (by rw [show b + 1 + B = b + (B + 1) by omega]; exact hB), he]
      by_cases hfull : b * cfg.CARDS_PER_PAGE + cfg.CARDS_PER_PAGE ≤ n
      · rw [min_eq_left hfull, Nat.add_sub_cancel_left, List.range'_append_1]
        congr 1
        omega
      · push_neg at hfull
        rw [min_eq_right (by omega),
          show n - (b * cfg.CARDS_PER_PAGE + cfg.CARDS_PER_PAGE) = 0 by omega]
        simp

/-- Every card index appears exactly once among the fronts, in deck
order. -/
theorem frontsOf_cardTrace (hm : m ≠ 2) (hP : 0 < cfg.CARDS_PER_PAGE) :
    frontsOf (cardTrace cfg n m) = List.range n := by
  unfold cardTrace
  rw [frontsOf_flatMap]
  simp only [frontsOf_blockEvs cfg n m hm]
  have h := range_blocks cfg n hP n 0 (by
    rw [Nat.zero_add]; exact Nat.le_mul_of_pos_right n hP)
  rw [Nat.zero_mul, Nat.sub_zero, Nat.sub_zero, ← List.range_eq_range',
    ← List.range_eq_range'] at h
  exact h

/-- Every card index appears exactly once among the backs, in deck
order. -/
theorem backsOf_cardTrace (hP : 0 < cfg.CARDS_PER_PAGE) :
    backsOf (cardTrace cfg n m) = List.range n := by
  unfold cardTrace
  rw [backsOf_flatMap]
  simp only [backsOf_blockEvs cfg n m]
  have h := range_blocks cfg n hP n 0 (by
    rw [Nat.zero_add]; exact Nat.le_mul_of_pos_right n hP)
  rw [Nat.zero_mul, Nat.sub_zero, Nat.sub_zero, ← List.range_eq_range',
    ← List.range_eq_range'] at h
  exact h

/-! ### Page counts -/

theorem countP_page_frontEvs (l : List Nat) :
    ((l.flatMap (frontEv cfg m)).countP isPageEv) = 0 := by
  rw [List.countP_eq_zero]
  intro a ha
  obtain ⟨i, _, hi⟩ := List.mem_flatMap.1 ha
  simp [isPageEv_frontEv cfg m i a hi]

theorem countP_page_backEvs (l : List Nat) :
    ((l.flatMap (backEv cfg m)).countP isPageEv) = 0 := by
  rw [List.countP_eq_zero]
  intro a ha
  obtain ⟨i, _, hi⟩ := List.mem_flatMap.1 ha
  simp [isPageEv_backEv cfg m i a hi]

theorem countP_page_pageDots : ((pageDots cfg).countP isPageEv) = 0 := by
  rw [List.countP_eq_zero]
  intro a ha
  simp [isPageEv_pageDots cfg a ha]

theorem countP_page_blockEvs (lo : Nat) :
    (blockEvs cfg n m lo).countP isPageEv =
      if (min (lo + cfg.CARDS_PER_PAGE) n) % cfg.CARDS_PER_PAGE = 0 then 2 else 1 := by
  simp only [blockEvs]
  simp [List.countP_append, countP_page_frontEvs, countP_page_backEvs,
    countP_page_pageDots, apply_ite (List.countP isPageEv), List.countP_cons,
    isPageEv]
  split <;> rfl

/-- `show_page` count of the blocks from `b` on: 2 per block, except that
the final block emits only its front page break when it is partial. -/
theorem countP_page_blocks (hm : m ≠ 2) (hP : 0 < cfg.CARDS_PER_PAGE) :
    ∀ (B b : Nat), n ≤ (b + B) * cfg.CARDS_PER_PAGE →
    ((List.range' b (nBlocks cfg n - b)).flatMap
        (fun j => blockEvs cfg n m (j * cfg.CARDS_PER_PAGE))).countP isPageEv =
      if n ≤ b * cfg.CARDS_PER_PAGE then 0
      else 2 * (nBlocks cfg n - b) - (if n % cfg.CARDS_PER_PAGE = 0 then 0 else 1) := by
  intro B
  induction B with
  | zero =>
    intro b hB
    rw [Nat.add_zero] at hB
    rw [show nBlocks cfg n - b = 0 by
        have := (nBlocks_le_iff cfg n hP b).2 hB; omega, if_pos hB]
    simp
  | succ B ih =>
    intro b hB
    by_cases hb : n ≤ b * cfg.CARDS_PER_PAGE
    · rw [show nBlocks cfg n - b = 0 by
          have := (nBlocks_le_iff cfg n hP b).2 hb; omega, if_pos hb]
      simp
    · push_neg at hb
      have hblt : b < nBlocks cfg n := by
        by_contra hc
        push_neg at hc
        exact absurd ((nBlocks_le_iff cfg n hP b).1 (by omega)) (by omega)
      have he : (b + 1) * cfg.CARDS_PER_PAGE
          = b * cfg.CARDS_PER_PAGE + cfg.CARDS_PER_PAGE := by ring
      rw [show nBlocks cfg n - b = (nBlocks cfg n - (b + 1)) + 1 by omega,
        List.range'_succ, List.flatMap_cons, List.countP_append,
        countP_page_blockEvs,
        ih (b + 1) (by rw [show b + 1 + B = b + (B + 1) by omega]; exact hB),
        if_neg (show ¬ n ≤ b * cfg.CARDS_PER_PAGE by omega)]
      by_cases hfull : b * cfg.CARDS_PER_PAGE + cfg.CARDS_PER_PAGE ≤ n
      · have hmod0 : (b * cfg.CARDS_PER_PAGE + cfg.CARDS_PER_PAGE)
            % cfg.CARDS_PER_PAGE = 0 := by
          rw [← he, Nat.mul_mod_left]
        rw [min_eq_left hfull, if_pos hmod0]
        by_cases hb1 : n ≤ (b + 1) * cfg.CARDS_PER_PAGE
        · have hn : n = (b + 1) * cfg.CARDS_PER_PAGE := by omega
          have hnmod : n % cfg.CARDS_PER_PAGE = 0 := by
            rw [hn, Nat.mul_mod_left]
          have hnb : nBlocks cfg n = b + 1 := by
            have h1 := (nBlocks_le_iff cfg n hP (b + 1)).2 (by omega)
            omega
          rw [if_pos hb1, if_pos hnmod]
          omega
        · have hblt1 : b + 1 < nBlocks cfg n := by
            by_contra hc
            push_neg at hc
            exact absurd ((nBlocks_le_iff cfg n hP (b + 1)).1 (by omega)) (by omega)
          rw [if_neg hb1]
          by_cases hd : n % cfg.CARDS_PER_PAGE = 0
          · rw [if_pos hd]
            omega
          · rw [if_neg hd]
            omega
      · push_neg at hfull
        have hnmod : n % cfg.CARDS_PER_PAGE = n - b * cfg.CARDS_PER_PAGE := by
          conv_lhs => rw [show n = b * cfg.CARDS_PER_PAGE
            + (n - b * cfg.CARDS_PER_PAGE) by omega]
          rw [mul_add_mod_lt b _ _ (by omega)]
        have hnb : nBlocks cfg n = b + 1 := by
          have h1 := (nBlocks_le_iff cfg n hP (b + 1)).2 (by omega)
          omega
        rw [min_eq_right (by omega : n ≤ b * cfg.CARDS_PER_PAGE + cfg.CARDS_PER_PAGE),
          if_neg (show ¬ n % cfg.CARDS_PER_PAGE = 0 by omega),
          if_pos (show n ≤ (b + 1) * cfg.CARDS_PER_PAGE by omega),
          if_neg (show ¬ n % cfg.CARDS_PER_PAGE = 0 by omega)]
        omega

/-- Total `show_page` count of a card-mode run. -/
theorem countP_page_cardTrace (hm : m ≠ 2) (hP : 0 < cfg.CARDS_PER_PAGE) :
    (cardTrace cfg n m).countP isPageEv =
      if n = 0 then 0
      else 2 * nBlocks cfg n - (if n % cfg.CARDS_PER_PAGE = 0 then 0 else 1) := by
  unfold cardTrace
  have h := countP_page_blocks cfg n m hm hP n 0 (by
    rw [Nat.zero_add]; exact Nat.le_mul_of_pos_right n hP)
  rw [Nat.zero_mul, Nat.sub_zero, ← List.range_eq_range'] at h
  rw [h]
  by_cases hn : n = 0 <;> simp [hn]

/-! ### Placement coordinates -/

theorem mem_frontEv_eq (i j r c : Nat) (x y : ℚ)
    (h : Ev.frontFace j r c x y ∈ frontEv cfg m i) :
    j = i ∧ r = rowOf cfg i ∧ c = colOf cfg i ∧ x = frontX cfg i ∧ y = rowY cfg i := by
  unfold frontEv at h
  rcases List.mem_append.1 h with h | h <;> split at h <;> simp at h
  exact h

theorem mem_backEv_eq (i j r c : Nat) (x y : ℚ)
    (h : Ev.backFace j r c x y ∈ backEv cfg m i) :
    j = i ∧ r = rowOf cfg i ∧ c = colOf cfg i ∧ x = backX cfg i ∧ y = rowY cfg i := by
  unfold backEv at h
  rcases List.mem_append.1 h with h | h
  · split at h <;> simp at h
  · simp at h
    exact h

/-- Any front placement in the trace carries the front-pass formulas of
its own index. -/
theorem mem_cardTrace_front (j r c : Nat) (x y : ℚ)
    (h : Ev.frontFace j r c x y ∈ cardTrace cfg n m) :
    r = rowOf cfg j ∧ c = colOf cfg j ∧ x = frontX cfg j ∧ y = rowY cfg j := by
  obtain ⟨b, _, hb⟩ := List.mem_flatMap.1 h
  simp only [blockEvs, List.mem_append] at hb
  rcases hb with ((((h1 | h1) | h1) | h1) | h1)
  · obtain ⟨i, _, hi⟩ := List.mem_flatMap.1 h1
    obtain ⟨rfl, h2⟩ := mem_frontEv_eq cfg m i j r c x y hi
    exact h2
  · unfold pageDots at h1
    split at h1 <;> simp at h1
  · simp at h1
  · obtain ⟨i, _, hi⟩ := List.mem_flatMap.1 h1
    unfold backEv at hi
    rcases List.mem_append.1 hi with h5 | h5
    · split at h5 <;> simp at h5
    · simp at h5
  · split at h1 <;> simp at h1

/-- Any back placement in the trace carries the back-pass formulas of its
own index. -/
theorem mem_cardTrace_back (j r c : Nat) (x y : ℚ)
    (h : Ev.backFace j r c x y ∈ cardTrace cfg n m) :
    r = rowOf cfg j ∧ c = colOf cfg j ∧ x = backX cfg j ∧ y = rowY cfg j := by
  obtain ⟨b, _, hb⟩ := List.mem_flatMap.1 h
  simp only [blockEvs, List.mem_append] at hb
  rcases hb with ((((h1 | h1) | h1) | h1) | h1)
  · obtain ⟨i, _, hi⟩ := List.mem_flatMap.1 h1
    unfold frontEv at hi
    rcases List.mem_append.1 hi with h5 | h5 <;> split at h5 <;> simp at h5
  · unfold pageDots at h1
    split at h1 <;> simp at h1
  · simp at h1
  · obtain ⟨i, _, hi⟩ := List.mem_flatMap.1 h1
    obtain ⟨rfl, h5⟩ := mem_backEv_eq cfg m i j r c x y hi
    exact h5
  · split at h1 <;> simp at h1

/-- In `ONLY` mode, no face content is ever painted: every emitted event
is a cutting outline, an alignment dot, or a page break. -/
theorem mem_onlyTrace_not_placement (e : Ev) (h : e ∈ onlyTrace cfg n) :
    isPlacement e = false := by
  obtain ⟨i, _, hi⟩ := List.mem_flatMap.1 h
  simp only [onlyEv, List.mem_append] at hi
  rcases hi with h1 | h1
  · simp [frontEv] at h1
    subst h1; rfl
  · split at h1
    · rcases List.mem_append.1 h1 with h2 | h2
      · unfold pageDots at h2
        split at h2 <;> simp at h2
        rcases h2 with h3 | h3 | h3 <;> subst h3 <;> rfl
      · simp at h2; subst h2; rfl
    · simp at h1

/-! ### Page decomposition -/

theorem splitPagesAux_nil_eq (acc : List Ev) :
    splitPagesAux [] acc = if acc.isEmpty then [] else [acc.reverse] := rfl

theorem splitPagesAux_cons_eq (e : Ev) (t : List Ev) (acc : List Ev) :
    splitPagesAux (e :: t) acc =
      if e = Ev.page then acc.reverse :: splitPagesAux t []
      else splitPagesAux t (e :: acc) := rfl

theorem splitPagesAux_nopage (xs : List Ev) (hxs : ∀ e ∈ xs, isPageEv e = false) :
    ∀ (rest acc : List Ev),
    splitPagesAux (xs ++ rest) acc = splitPagesAux rest (xs.reverse ++ acc) := by
  induction xs with
  | nil => intro rest acc; simp
  | cons e t ih =>
    intro rest acc
    have he : e ≠ Ev.page := by
      have h1 := hxs e (by simp)
      intro hcontra
      subst hcontra
      simp [isPageEv] at h1
    rw [List.cons_append, splitPagesAux_cons_eq, if_neg he,
      ih (fun x hx => hxs x (by simp [hx])) rest (e :: acc)]
    congr 1
    simp

theorem splitPagesAux_page (t acc : List Ev) :
    splitPagesAux (Ev.page :: t) acc = acc.reverse :: splitPagesAux t [] := by
  rw [splitPagesAux_cons_eq, if_pos rfl]

theorem splitPagesAux_page' (t acc : List Ev) :
    splitPagesAux ([Ev.page] ++ t) acc = acc.reverse :: splitPagesAux t [] :=
  splitPagesAux_page t acc

theorem splitPagesAux_nopage_nil (xs : List Ev)
    (hxs : ∀ e ∈ xs, isPageEv e = false) (acc : List Ev) :
    splitPagesAux xs acc = splitPagesAux [] (xs.reverse ++ acc) := by
  have h := splitPagesAux_nopage xs hxs [] acc
  rwa [List.append_nil] at h

theorem nopage_frontSeg (l : List Nat) (e : Ev)
    (he : e ∈ (l.flatMap (frontEv cfg m)) ++ pageDots cfg) : isPageEv e = false := by
  rcases List.mem_append.1 he with h | h
  · obtain ⟨i, _, hi⟩ := List.mem_flatMap.1 h
    exact isPageEv_frontEv cfg m i e hi
  · exact isPageEv_pageDots cfg e h

theorem nopage_backSeg (l : List Nat) (e : Ev)
    (he : e ∈ l.flatMap (backEv cfg m)) : isPageEv e = false := by
  obtain ⟨i, _, hi⟩ := List.mem_flatMap.1 he
  exact isPageEv_backEv cfg m i e hi

theorem backSeg_ne_nil (lo len : Nat) (hlen : 0 < len) :
    (List.range' lo len).flatMap (backEv cfg m) ≠ [] := by
  apply List.ne_nil_of_mem (a := Ev.backFace lo (rowOf cfg lo) (colOf cfg lo)
    (backX cfg lo) (rowY cfg lo))
  apply List.mem_flatMap_of_mem (a := lo)
  · rw [show len = (len - 1) + 1 by omega, List.range'_succ]
    simp
  · unfold backEv
    simp

/-- The pages of the blocks from `b` on: each block contributes its front
page and its back page, the trailing unflushed backs of a partial final
block included (cairo flushes them on `finish`). -/
theorem splitPages_blocks (hm : m ≠ 2) (hP : 0 < cfg.CARDS_PER_PAGE) :
    ∀ (B b : Nat), n ≤ (b + B) * cfg.CARDS_PER_PAGE →
    splitPagesAux ((List.range' b (nBlocks cfg n - b)).flatMap
        (fun j => blockEvs cfg n m (j * cfg.CARDS_PER_PAGE))) [] =
      (List.range' b (nBlocks cfg n - b)).flatMap
        (fun j => blockPages cfg n m (j * cfg.CARDS_PER_PAGE)) := by
  intro B
  induction B with
  | zero =>
    intro b hB
    rw [Nat.add_zero] at hB
    rw [show nBlocks cfg n - b = 0 by
        have := (nBlocks_le_iff cfg n hP b).2 hB; omega]
    simp [splitPagesAux_nil_eq]
  | succ B ih =>
    intro b hB
    by_cases hb : n ≤ b * cfg.CARDS_PER_PAGE
    · rw [show nBlocks cfg n - b = 0 by
          have := (nBlocks_le_iff cfg n hP b).2 hb; omega]
      simp [splitPagesAux_nil_eq]
    · push_neg at hb
      have hblt : b < nBlocks cfg n := by
        by_contra hc
        push_neg at hc
        exact absurd ((nBlocks_le_iff cfg n hP b).1 (by omega)) (by omega)
      have he : (b + 1) * cfg.CARDS_PER_PAGE
          = b * cfg.CARDS_PER_PAGE + cfg.CARDS_PER_PAGE := by ring
      rw [show nBlocks cfg n - b = (nBlocks cfg n - (b + 1)) + 1 by omega,
        List.range'_succ, List.flatMap_cons, List.flatMap_cons]
      by_cases hfull : b * cfg.CARDS_PER_PAGE + cfg.CARDS_PER_PAGE ≤ n
      · have hmod0 : (b * cfg.CARDS_PER_PAGE + cfg.CARDS_PER_PAGE)
            % cfg.CARDS_PER_PAGE = 0 := by
          rw [← he, Nat.mul_mod_left]
        have hbe : blockEvs cfg n m (b * cfg.CARDS_PER_PAGE) =
            (List.range' (b * cfg.CARDS_PER_PAGE) cfg.CARDS_PER_PAGE).flatMap
              (frontEv cfg m) ++ pageDots cfg ++ [Ev.page]
            ++ (List.range' (b * cfg.CARDS_PER_PAGE) cfg.CARDS_PER_PAGE).flatMap
              (backEv cfg m) ++ [Ev.page] := by
          simp only [blockEvs]
          rw [min_eq_left hfull, Nat.add_sub_cancel_left, if_pos hmod0]
        have hbp : blockPages cfg n m (b * cfg.CARDS_PER_PAGE) =
            [(List.range' (b * cfg.CARDS_PER_PAGE) cfg.CARDS_PER_PAGE).flatMap
              (frontEv cfg m) ++ pageDots cfg,
             (List.range' (b * cfg.CARDS_PER_PAGE) cfg.CARDS_PER_PAGE).flatMap
              (backEv cfg m)] := by
          simp only [blockPages]
          rw [min_eq_left hfull, Nat.add_sub_cancel_left]
        rw [hbe, hbp,
          show ∀ (F D P B T R : List Ev), ((((F ++ D) ++ P) ++ B) ++ T) ++ R
            = (F ++ D) ++ (P ++ (B ++ (T ++ R))) from by intros; simp,
          splitPagesAux_nopage _ (nopage_frontSeg cfg m _) _ [],
          splitPagesAux_page',
          splitPagesAux_nopage _ (nopage_backSeg cfg m _) _ [],
          splitPagesAux_page',
          ih (b + 1) (by rw [show b + 1 + B = b + (B + 1) by omega]; exact hB)]
        simp
      · push_neg at hfull
        have hnmod : n % cfg.CARDS_PER_PAGE = n - b * cfg.CARDS_PER_PAGE := by
          conv_lhs => rw [show n = b * cfg.CARDS_PER_PAGE
            + (n - b * cfg.CARDS_PER_PAGE) by omega]
          rw [mul_add_mod_lt b _ _ (by omega)]
        have hnb : nBlocks cfg n = b + 1 := by
          have h1 := (nBlocks_le_iff cfg n hP (b + 1)).2 (by omega)
          omega
        have hbe : blockEvs cfg n m (b * cfg.CARDS_PER_PAGE) =
            (List.range' (b * cfg.CARDS_PER_PAGE) (n - b * cfg.CARDS_PER_PAGE)).flatMap
              (frontEv cfg m) ++ pageDots cfg ++ [Ev.page]
            ++ (List.range' (b * cfg.CARDS_PER_PAGE) (n - b * cfg.CARDS_PER_PAGE)).flatMap
              (backEv cfg m) := by
          simp only [blockEvs]
          rw [min_eq_right (by omega : n ≤ b * cfg.CARDS_PER_PAGE + cfg.CARDS_PER_PAGE),
            if_neg (show ¬ n % cfg.CARDS_PER_PAGE = 0 by omega), List.append_nil]
        have hbp : blockPages cfg n m (b * cfg.CARDS_PER_PAGE) =
            [(List.range' (b * cfg.CARDS_PER_PAGE) (n - b * cfg.CARDS_PER_PAGE)).flatMap
              (frontEv cfg m) ++ pageDots cfg,
             (List.range' (b * cfg.CARDS_PER_PAGE) (n - b * cfg.CARDS_PER_PAGE)).flatMap
              (backEv cfg m)] := by
          simp only [blockPages]
          rw [min_eq_right (by omega : n ≤ b * cfg.CARDS_PER_PAGE + cfg.CARDS_PER_PAGE)]
        rw [hbe, hbp, show nBlocks cfg n - (b + 1) = 0 by omega]
        simp only [List.range'_zero, List.flatMap_nil, List.append_nil]
        rw [show ∀ (F D P B : List Ev), (((F ++ D) ++ P) ++ B)
            = (F ++ D) ++ (P ++ B) from by intros; simp,
          splitPagesAux_nopage _ (nopage_frontSeg cfg m _) _ [],
          splitPagesAux_page',
          splitPagesAux_nopage_nil _ (nopage_backSeg cfg m _) [],
          splitPagesAux_nil_eq,
          if_neg (by
            simp only [List.isEmpty_eq_true, List.append_nil, List.reverse_eq_nil_iff]
            exact backSeg_ne_nil cfg m (b * cfg.CARDS_PER_PAGE)
              (n - b * cfg.CARDS_PER_PAGE) (by omega))]
        simp

/-- The pages of a whole card-mode run. -/
theorem splitPages_cardTrace (hm : m ≠ 2) (hP : 0 < cfg.CARDS_PER_PAGE) :
    splitPages (cardTrace cfg n m) =
      (List.range (nBlocks cfg n)).flatMap
        (fun j => blockPages cfg n m (j * cfg.CARDS_PER_PAGE)) := by
  unfold splitPages cardTrace
  have h := splitPages_blocks cfg n m hm hP n 0 (by
    rw [Nat.zero_add]; exact Nat.le_mul_of_pos_right n hP)
  rw [Nat.sub_zero, ← List.range_eq_range'] at h
  exact h

theorem length_flatMap_blockPages (l : List Nat) :
    (l.flatMap (fun j => blockPages cfg n m (j * cfg.CARDS_PER_PAGE))).length
      = 2 * l.length := by
  induction l with
  | nil => rfl
  | cons a t ih =>
    rw [List.flatMap_cons, List.length_append, ih]
    simp only [blockPages]
    simp
    omega

/-! ### Remaining helpers -/

theorem countP_placement_eq (l : List Ev) :
    l.countP isPlacement = (frontsOf l).length + (backsOf l).length := by
  induction l with
  | nil => rfl
  | cons e t ih =>
    cases e <;> simp [List.countP_cons, isPlacement, frontsOf, backsOf,
      List.filterMap_cons] <;> simp [frontsOf, backsOf] at ih <;> omega

theorem shape_frontEv (i : Nat) (e : Ev) (he : e ∈ frontEv cfg m i) :
    isDotEv e = false ∧ isBackFace e = false := by
  unfold frontEv at he
  rcases List.mem_append.1 he with h | h <;> split at h <;> simp at h <;>
    subst h <;> exact ⟨rfl, rfl⟩

theorem shape_backEv (i : Nat) (e : Ev) (he : e ∈ backEv cfg m i) :
    isDotEv e = false ∧ isFrontFace e = false := by
  unfold backEv at he
  rcases List.mem_append.1 he with h | h
  · split at h <;> simp at h
    subst h; exact ⟨rfl, rfl⟩
  · simp at h; subst h; exact ⟨rfl, rfl⟩

theorem shape_pageDots (e : Ev) (he : e ∈ pageDots cfg) :
    isDotEv e = true ∧ isBackFace e = false ∧ isFrontFace e = false := by
  unfold pageDots at he
  split at he <;> simp at he
  rcases he with h | h | h <;> subst h <;> exact ⟨rfl, rfl, rfl⟩

theorem drawTrace_card (hm : m ≠ 2) (hH : 0 < cfg.CARDS_HORI)
    (hV : 0 < cfg.CARDS_VERTI) : drawTrace cfg n m = cardTrace cfg n m := by
  unfold drawTrace
  rw [draw_cards_eq_cardTrace cfg n m hm hH hV]
  rfl

theorem drawTrace_only : drawTrace cfg n 2 = onlyTrace cfg n := by
  unfold drawTrace
  rw [draw_cards_eq_onlyTrace]
  rfl

end Layout

theorem card_mode_ne_two (m : Nat) (hm : m = NO ∨ m = YES) : m ≠ 2 := by
  rcases hm with rfl | rfl <;> decide

/-- Python's `round` lands within half a unit of its argument. -/
theorem pyround_err (q : ℚ) : |(pyround q : ℚ) - q| ≤ 1 / 2 := by
  have h1 : ((⌊q⌋ : ℤ) : ℚ) ≤ q := Int.floor_le q
  have h2 : q < (⌊q⌋ : ℚ) + 1 := Int.lt_floor_add_one q
  unfold pyround
  split
  · next h => rw [abs_le]; constructor <;> linarith
  · next h =>
    push_neg at h
    split
    · next h' => rw [abs_le]; push_cast; constructor <;> linarith
    · next h' =>
      push_neg at h'
      have heq : q - (⌊q⌋ : ℚ) = 1 / 2 := le_antisymm h' h
      split <;> rw [abs_le] <;> push_cast <;> constructor <;> linarith

/-! ## Claims C1, C2, C3, C4, C8, C9, C10 (deck layout) -/

/-- C1: in a card-drawing mode (`cutting_lines` = `NO` or `YES`), the
placement stream has exactly `2 * N` entries: the painted front indices,
in order, are exactly `0, …, N-1`, as are the painted back indices — each
card is painted exactly once per side, the rewind re-visiting each block
for its backs. -/
theorem C1_every_card_once_per_side (cfg : Config) (n m : Nat)
    (hm : m = NO ∨ m = YES) (hH : 0 < cfg.CARDS_HORI) (hV : 0 < cfg.CARDS_VERTI) :
    frontsOf (drawTrace cfg n m) = List.range n ∧
    backsOf (drawTrace cfg n m) = List.range n ∧
    (drawTrace cfg n m).countP isPlacement = 2 * n := by
  have hm2 := card_mode_ne_two m hm
  have hP := Nat.mul_pos hH hV
  rw [drawTrace_card cfg n m hm2 hH hV]
  refine ⟨frontsOf_cardTrace cfg n m hm2 hP, backsOf_cardTrace cfg n m hP, ?_⟩
  rw [countP_placement_eq, frontsOf_cardTrace cfg n m hm2 hP,
    backsOf_cardTrace cfg n m hP, List.length_range]
  omega

theorem C1_every_card_once_per_side_witness :
    frontsOf (drawTrace repoCfg 5 0) = List.range 5 ∧
    backsOf (drawTrace repoCfg 5 0) = List.range 5 ∧
    (drawTrace repoCfg 5 0).countP isPlacement = 2 * 5 :=
  C1_every_card_once_per_side repoCfg 5 0 (Or.inl rfl) (by decide) (by decide)

/-- C2: a front placement and a back placement of the same card index
carry equal page-block-relative rows and columns, both computed as
`(i // CARDS_HORI) % CARDS_VERTI` and `i % CARDS_HORI` from the same
index, even though their x coordinates come from different formulas. -/
theorem C2_mirrored_alignment (cfg : Config) (n m : Nat)
    (hm : m = NO ∨ m = YES) (hH : 0 < cfg.CARDS_HORI) (hV : 0 < cfg.CARDS_VERTI)
    (i r c r' c' : Nat) (x y x' y' : ℚ)
    (hf : Ev.frontFace i r c x y ∈ drawTrace cfg n m)
    (hb : Ev.backFace i r' c' x' y' ∈ drawTrace cfg n m) :
    r = r' ∧ c = c' ∧ r = (i / cfg.CARDS_HORI) % cfg.CARDS_VERTI
      ∧ c = i % cfg.CARDS_HORI ∧ y = y' := by
  have hm2 := card_mode_ne_two m hm
  rw [drawTrace_card cfg n m hm2 hH hV] at hf hb
  obtain ⟨h1, h2, _, h4⟩ := mem_cardTrace_front cfg n m i r c x y hf
  obtain ⟨h1', h2', _, h4'⟩ := mem_cardTrace_back cfg n m i r' c' x' y' hb
  exact ⟨h1.trans h1'.symm, h2.trans h2'.symm, h1, h2, h4.trans h4'.symm⟩

theorem C2_mirrored_alignment_witness :
    (0 : Nat) = 0 ∧ (0 : Nat) = 0 ∧
    (0 : Nat) = (0 / repoCfg.CARDS_HORI) % repoCfg.CARDS_VERTI ∧
    (0 : Nat) = 0 % repoCfg.CARDS_HORI ∧ (15 : ℚ) = 15 :=
  C2_mirrored_alignment repoCfg 1 0 (Or.inl rfl) (by decide) (by decide)
    0 0 0 0 0 15 15 936 15 (by decide) (by decide)

/-- C3 counterexample: with the shipped configuration, card 0's back x is
936, which is neither `PAGE_WIDTH - MARGIN - (c+1)*WIDTH` minus the dot
offset (that value is `118815/127 ≈ 935.55`, not an integer) nor does
`front_x + back_x + WIDTH` equal `PAGE_WIDTH` (it equals 1191 =
`round(PAGE_WIDTH)`, while `PAGE_WIDTH = 151200/127 ≈ 1190.55`). -/
theorem C3_counterexample :
    Ev.frontFace 0 0 0 15 15 ∈ drawTrace repoCfg 1 0 ∧
    Ev.backFace 0 0 0 936 15 ∈ drawTrace repoCfg 1 0 ∧
    (936 : ℚ) ≠ repoCfg.PAGE_WIDTH - repoCfg.MARGIN - ((0 : ℚ) + 1) * repoCfg.WIDTH
      - dotOffset repoCfg 0 ∧
    (15 : ℚ) + 936 + repoCfg.WIDTH ≠ repoCfg.PAGE_WIDTH :=
  ⟨by decide, by decide, by decide, by decide⟩

/-- C3 (amended): the back x is `round(PAGE_WIDTH - MARGIN - (c+1)*WIDTH)`
minus the dot offset — `PAGE_WIDTH` rounded through Python's `round`, not
used exactly — so the mirror identity holds only up to that rounding:
`front_x + back_x + WIDTH` equals `PAGE_WIDTH` plus the rounding error of
`round(PAGE_WIDTH - MARGIN - (c+1)*WIDTH)`, which is at most 1/2 point in
absolute value (and 0 exactly when that quantity is an integer, which the
shipped A3 `PAGE_WIDTH = 420*72/25.4` is not). -/
theorem C3_back_x_mirror_up_to_rounding (cfg : Config) (n m : Nat)
    (hm : m = NO ∨ m = YES) (hH : 0 < cfg.CARDS_HORI) (hV : 0 < cfg.CARDS_VERTI)
    (i r c r' c' : Nat) (x y x' y' : ℚ)
    (hb : Ev.backFace i r' c' x' y' ∈ drawTrace cfg n m) :
    x' = (pyround (cfg.PAGE_WIDTH - cfg.MARGIN - ((c' : ℚ) + 1) * cfg.WIDTH) : ℚ)
        - dotOffset cfg c' ∧
    (Ev.frontFace i r c x y ∈ drawTrace cfg n m →
      x + x' + cfg.WIDTH = cfg.PAGE_WIDTH
        + ((pyround (cfg.PAGE_WIDTH - cfg.MARGIN - ((c' : ℚ) + 1) * cfg.WIDTH) : ℚ)
          - (cfg.PAGE_WIDTH - cfg.MARGIN - ((c' : ℚ) + 1) * cfg.WIDTH)) ∧
      |x + x' + cfg.WIDTH - cfg.PAGE_WIDTH| ≤ 1 / 2) := by
  have hm2 := card_mode_ne_two m hm
  rw [drawTrace_card cfg n m hm2 hH hV] at hb
  obtain ⟨_, hc', hx', _⟩ := mem_cardTrace_back cfg n m i r' c' x' y' hb
  subst hc'
  constructor
  · rw [hx']
    rfl
  · intro hf
    rw [drawTrace_card cfg n m hm2 hH hV] at hf
    obtain ⟨_, hc, hx, _⟩ := mem_cardTrace_front cfg n m i r c x y hf
    subst hc
    rw [hx, hx']
    unfold frontX backX colOf
    constructor
    · ring
    · have heq : cfg.MARGIN + (↑(i % cfg.CARDS_HORI) : ℚ) * cfg.WIDTH
          + dotOffset cfg (i % cfg.CARDS_HORI)
          + ((pyround (cfg.PAGE_WIDTH - cfg.MARGIN
              - ((↑(i % cfg.CARDS_HORI) : ℚ) + 1) * cfg.WIDTH) : ℚ)
            - dotOffset cfg (i % cfg.CARDS_HORI))
          + cfg.WIDTH - cfg.PAGE_WIDTH
          = (pyround (cfg.PAGE_WIDTH - cfg.MARGIN
              - ((↑(i % cfg.CARDS_HORI) : ℚ) + 1) * cfg.WIDTH) : ℚ)
            - (cfg.PAGE_WIDTH - cfg.MARGIN
              - ((↑(i % cfg.CARDS_HORI) : ℚ) + 1) * cfg.WIDTH) := by
        ring
      rw [heq]
      exact pyround_err _

theorem C3_back_x_mirror_up_to_rounding_witness :
    (936 : ℚ) = (pyround (repoCfg.PAGE_WIDTH - repoCfg.MARGIN
        - (((0 : Nat) : ℚ) + 1) * repoCfg.WIDTH) : ℚ) - dotOffset repoCfg 0 ∧
    (Ev.frontFace 0 0 0 15 15 ∈ drawTrace repoCfg 1 0 →
      (15 : ℚ) + 936 + repoCfg.WIDTH = repoCfg.PAGE_WIDTH
        + ((pyround (repoCfg.PAGE_WIDTH - repoCfg.MARGIN
            - (((0 : Nat) : ℚ) + 1) * repoCfg.WIDTH) : ℚ)
          - (repoCfg.PAGE_WIDTH - repoCfg.MARGIN
            - (((0 : Nat) : ℚ) + 1) * repoCfg.WIDTH)) ∧
      |(15 : ℚ) + 936 + repoCfg.WIDTH - repoCfg.PAGE_WIDTH| ≤ 1 / 2) :=
  C3_back_x_mirror_up_to_rounding repoCfg 1 0 (Or.inl rfl) (by decide) (by decide)
    0 0 0 0 0 15 15 936 15 (by decide)

/-- C4 counterexample: a 1-card deck in mode `NO` produces exactly one
`show_page` call, not `2 * ceil(1 / CARDS_PER_PAGE) = 2`: the final
(partial) back page is never flushed by `draw_cards` — the back branch
only calls `show_page` when `(i+1) % CARDS_PER_PAGE == 0`. -/
theorem C4_counterexample :
    (drawTrace repoCfg 1 0).countP isPageEv = 1 ∧
    2 * ((1 + repoCfg.CARDS_PER_PAGE - 1) / repoCfg.CARDS_PER_PAGE) = 2 ∧
    (1 : Nat) ≠ 2 :=
  ⟨by decide, by decide, by decide⟩

/-- C4 (amended): in a card-drawing mode, `draw_cards` makes
`2 * ceil(N/P)` `show_page` calls when `P` divides `N` (and 0 when
`N = 0`), but only `2 * ceil(N/P) - 1` when the last page-block is
partial: the pending final back page is emitted by `surface.finish()`
outside `draw_cards`, so the resulting document still has exactly
`2 * ceil(N/P)` pages (`nBlocks` is `⌈N / CARDS_PER_PAGE⌉`). -/
theorem C4_page_counts (cfg : Config) (n m : Nat)
    (hm : m = NO ∨ m = YES) (hH : 0 < cfg.CARDS_HORI) (hV : 0 < cfg.CARDS_VERTI) :
    (drawTrace cfg n m).countP isPageEv =
      (if n = 0 then 0
       else 2 * nBlocks cfg n - (if n % cfg.CARDS_PER_PAGE = 0 then 0 else 1)) ∧
    (splitPages (drawTrace cfg n m)).length = 2 * nBlocks cfg n := by
  have hm2 := card_mode_ne_two m hm
  have hP := Nat.mul_pos hH hV
  rw [drawTrace_card cfg n m hm2 hH hV]
  refine ⟨countP_page_cardTrace cfg n m hm2 hP, ?_⟩
  rw [splitPages_cardTrace cfg n m hm2 hP, length_flatMap_blockPages,
    List.length_range]

theorem C4_page_counts_witness :
    (drawTrace repoCfg 5 0).countP isPageEv =
      (if (5 : Nat) = 0 then 0
       else 2 * nBlocks repoCfg 5 - (if 5 % repoCfg.CARDS_PER_PAGE = 0 then 0 else 1)) ∧
    (splitPages (drawTrace repoCfg 5 0)).length = 2 * nBlocks repoCfg 5 :=
  C4_page_counts repoCfg 5 0 (Or.inl rfl) (by decide) (by decide)

/-- C8: in cutting-guide mode (`cutting_lines = ONLY`) no card face is
ever painted — `make_front`, `make_back` and the corner number never run
(the `front` flag never flips, so the back branch is unreachable); the
trace holds only cutting outlines, alignment dots and page breaks. -/
theorem C8_only_mode_suppresses_faces (cfg : Config) (n : Nat) (e : Ev)
    (he : e ∈ drawTrace cfg n ONLY) : isPlacement e = false := by
  rw [show ONLY = 2 from rfl, drawTrace_only cfg n] at he
  exact mem_onlyTrace_not_placement cfg n e he

theorem C8_only_mode_suppresses_faces_witness :
    isPlacement (Ev.cut 15 15) = false :=
  C8_only_mode_suppresses_faces repoCfg 1 (Ev.cut 15 15) (by decide)

/-- C9 counterexample: with the shipped configuration (dots enabled), the
run on a 1-card deck produces a back page with zero alignment dots —
dots are drawn only in the front branch (lines 150-154), so back pages
carry none and the claim "every emitted page carries exactly three dots"
fails. -/
theorem C9_counterexample :
    ¬ (∀ seg ∈ splitPages (drawTrace repoCfg 1 NO), seg.countP isDotEv = 3) := by
  decide

/-- C9 (amended): with `DOTS` enabled, every *front* page carries exactly
the three black dots at offsets `(MARGIN + WIDTH + DOT_RADIUS, MARGIN +
HEIGHT)`, `(MARGIN + 2*WIDTH + 3*DOT_RADIUS, MARGIN + 2*HEIGHT)`,
`(MARGIN + WIDTH + DOT_RADIUS, MARGIN + 3*HEIGHT)` (the list
`pageDots`), while back pages carry no dots at all: every page of a
card-mode run either holds no back face and exactly the `pageDots` dots,
or holds no front face and no dots. -/
theorem C9_dots_only_on_front_pages (cfg : Config) (n m : Nat)
    (hm : m = NO ∨ m = YES) (hH : 0 < cfg.CARDS_HORI) (hV : 0 < cfg.CARDS_VERTI)
    (seg : List Ev) (hseg : seg ∈ splitPages (drawTrace cfg n m)) :
    (seg.filter isDotEv = pageDots cfg ∧ ∀ e ∈ seg, isBackFace e = false) ∨
    (seg.filter isDotEv = [] ∧ ∀ e ∈ seg, isFrontFace e = false) := by
  have hm2 := card_mode_ne_two m hm
  have hP := Nat.mul_pos hH hV
  rw [drawTrace_card cfg n m hm2 hH hV, splitPages_cardTrace cfg n m hm2 hP] at hseg
  obtain ⟨b, _, hbp⟩ := List.mem_flatMap.1 hseg
  simp only [blockPages, List.mem_cons, List.mem_singleton] at hbp
  rcases hbp with rfl | rfl | hbp
  · left
    constructor
    · rw [List.filter_append,
        List.filter_eq_nil_iff.2 (fun e he => by
          obtain ⟨i, _, hi⟩ := List.mem_flatMap.1 he
          simp [(shape_frontEv cfg m i e hi).1]),
        List.filter_eq_self.2 (fun e he => (shape_pageDots cfg e he).1),
        List.nil_append]
    · intro e he
      rcases List.mem_append.1 he with h | h
      · obtain ⟨i, _, hi⟩ := List.mem_flatMap.1 h
        exact (shape_frontEv cfg m i e hi).2
      · exact (shape_pageDots cfg e h).2.1
  · right
    constructor
    · rw [List.filter_eq_nil_iff.2 (fun e he => by
        obtain ⟨i, _, hi⟩ := List.mem_flatMap.1 he
        simp [(shape_backEv cfg m i e hi).1])]
    · intro e he
      obtain ⟨i, _, hi⟩ := List.mem_flatMap.1 he
      exact (shape_backEv cfg m i e hi).2
  · simp at hbp

theorem C9_dots_only_on_front_pages_witness :
    (([Ev.backFace 0 0 0 936 15] : List Ev).filter isDotEv = pageDots repoCfg ∧
      ∀ e ∈ ([Ev.backFace 0 0 0 936 15] : List Ev), isBackFace e = false) ∨
    (([Ev.backFace 0 0 0 936 15] : List Ev).filter isDotEv = [] ∧
      ∀ e ∈ ([Ev.backFace 0 0 0 936 15] : List Ev), isFrontFace e = false) :=
  C9_dots_only_on_front_pages repoCfg 1 0 (Or.inl rfl) (by decide) (by decide)
    [Ev.backFace 0 0 0 936 15] (by decide)

/-- C10: `draw_cards` terminates on every finite deck in every mode,
given positive card-per-row and card-per-column counts: the rewinds are
offset by the forward-only back sub-pass, so the fuelled loop always
exits within its `2n + 1` iteration budget. -/
theorem C10_draw_cards_terminates (cfg : Config) (n m : Nat)
    (hH : 0 < cfg.CARDS_HORI) (hV : 0 < cfg.CARDS_VERTI) :
    (draw_cards cfg n m).isSome = true := by
  by_cases hm : m = 2
  · subst hm
    rw [draw_cards_eq_onlyTrace]
    rfl
  · rw [draw_cards_eq_cardTrace cfg n m hm hH hV]
    rfl

theorem C10_draw_cards_terminates_witness :
    (draw_cards repoCfg 5 0).isSome = true :=
  C10_draw_cards_terminates repoCfg 5 0 (by decide) (by decide)

end CardMaker
